import Mathlib

/-!
Verification of the vulkano buffer access-tracking state machine
(`src/vulkano/src/buffer/sys.rs`, `BufferState`), the CPU-accessible
buffer wrappers (`src/vulkano/src/buffer/cpu_access.rs`) and the
`GpuFuture::flush` contract (`src/vulkano/src/sync/future/mod.rs`).

Machine integers (`u32` counters, `DeviceSize = u64` offsets) are
modelled as `Nat`; counter overflow is not modelled.  The Rust
`unreachable!` panic branches of the `unsafe` lock/unlock methods are
modelled by returning `none`.
-/

set_option linter.unusedVariables false

namespace Vulkano

/-- The `CurrentAccess` enum.  Its defining module (`src/sync/mod.rs`) is
not part of the sources under review; the variants and fields are modelled
from the spec (§3 RangeState / CurrentAccess) and are fully pinned down by
their uses in `buffer/sys.rs`:
`Shared { cpu_reads, gpu_reads }`, `CpuExclusive`,
`GpuExclusive { gpu_reads, gpu_writes }`. -/
inductive CurrentAccess where
  | cpuExclusive : CurrentAccess
  | gpuExclusive (gpu_reads gpu_writes : Nat) : CurrentAccess
  | shared (cpu_reads gpu_reads : Nat) : CurrentAccess
deriving DecidableEq, Repr

/-- One entry of the range map: the key range `[lo, hi)` together with the
`BufferRangeState` value (which is a single-field struct holding a
`CurrentAccess`; it is flattened here into the `access` field). -/
structure MapEntry where
  lo : Nat
  hi : Nat
  access : CurrentAccess
deriving DecidableEq, Repr

/-- Modelled from the spec: `RangeMap` (`src/range_map.rs` is not part of
the sources under review).  Per §3, an `AccessRangeMap` is an ordered
collection of non-overlapping `[start,end)` ranges covering
`[0, resource_size)`; it is modelled as a sorted list of `MapEntry`.
Iteration over the entries overlapping a query range (`RangeMap::range`)
keeps exactly the stored ranges with nonempty intersection with the query. -/
def overlapsB (qlo qhi : Nat) (e : MapEntry) : Bool :=
  max qlo e.lo < min qhi e.hi

/-- Modelled from the spec: `RangeMap::split_at`, which per §3 subdivides a
range at a boundary without changing total coverage.  Splitting an entry at
an interior point yields the two halves, both keeping the entry's value;
entries not strictly containing the point are unchanged. -/
def splitEntry (pos : Nat) (e : MapEntry) : List MapEntry :=
  if e.lo < pos ∧ pos < e.hi then
    [⟨e.lo, pos, e.access⟩, ⟨pos, e.hi, e.access⟩]
  else [e]

/-- Modelled from the spec: `RangeMap::split_at` applied to the whole map. -/
def splitAt (pos : Nat) (rs : List MapEntry) : List MapEntry :=
  rs.flatMap (splitEntry pos)

/-- The state of a buffer: `BufferState { ranges: RangeMap<DeviceSize, BufferRangeState> }`. -/
structure BufferState where
  ranges : List MapEntry
deriving DecidableEq, Repr

/-- Rust `BufferState::new(size)`: the single range `0..size` in state
`Shared { cpu_reads: 0, gpu_reads: 0 }`. -/
def BufferState.new (size : Nat) : BufferState :=
  ⟨[⟨0, size, .shared 0 0⟩]⟩

/-- The entries of a range map overlapping the query range, in order
(the result of iterating `self.ranges.range(&range)`). -/
def covered (qlo qhi : Nat) (rs : List MapEntry) : List MapEntry :=
  rs.filter (overlapsB qlo qhi)

/-- The access values of the covered entries. -/
def BufferState.coveredAccesses (st : BufferState) (qlo qhi : Nat) : List CurrentAccess :=
  (covered qlo qhi st.ranges).map MapEntry.access

/-- Generic loop of the `check_*` methods: scan the covered entries in
order; `f` returns `some err` on the first conflicting entry, which is
returned, otherwise the scan succeeds. -/
def checkList {ε : Type} (f : CurrentAccess → Option ε) : List MapEntry → Except ε Unit
  | [] => .ok ()
  | e :: rest =>
    match f e.access with
    | some err => .error err
    | none => checkList f rest

/-- Generic body of the `unsafe` lock/unlock methods: split the map at both
ends of the range, then apply the per-entry transition `f` to every covered
entry; `f` returning `none` models the `unreachable!` panic branch. -/
def lockEach (f : CurrentAccess → Option CurrentAccess) (qlo qhi : Nat) :
    List MapEntry → Option (List MapEntry)
  | [] => some []
  | e :: rest =>
    match (if overlapsB qlo qhi e then (f e.access).map fun a => ⟨e.lo, e.hi, a⟩
           else some e),
          lockEach f qlo qhi rest with
    | some e', some rest' => some (e' :: rest')
    | _, _ => none

/-- Generic lock/unlock operation on a `BufferState`. -/
def lockWith (f : CurrentAccess → Option CurrentAccess) (st : BufferState)
    (qlo qhi : Nat) : Option BufferState :=
  (lockEach f qlo qhi (splitAt qhi (splitAt qlo st.ranges))).map BufferState.mk

/-- Rust `ReadLockError` (`src/buffer/cpu_access.rs`). -/
inductive ReadLockError where
  | CpuWriteLocked : ReadLockError
  | GpuWriteLocked : ReadLockError
deriving DecidableEq, Repr

/-- Rust `WriteLockError` (`src/buffer/cpu_access.rs`). -/
inductive WriteLockError where
  | CpuLocked : WriteLockError
  | GpuLocked : WriteLockError
deriving DecidableEq, Repr

/-- Rust `AccessError` (`src/sync/future/mod.rs`), restricted to the variants the
buffer state machine produces. -/
inductive AccessError where
  | ExclusiveDenied : AccessError
  | AlreadyInUse : AccessError
  | BufferNotInitialized : AccessError
  | SwapchainImageNotAcquired : AccessError
deriving DecidableEq, Repr

/-- Match arms of `check_cpu_read`: `CpuExclusive` yields `CpuWriteLocked`,
`GpuExclusive` yields `GpuWriteLocked`, `Shared` is allowed. -/
def checkCpuReadAccess : CurrentAccess → Option ReadLockError
  | .cpuExclusive => some .CpuWriteLocked
  | .gpuExclusive _ _ => some .GpuWriteLocked
  | .shared _ _ => none

/-- Rust `BufferState::check_cpu_read`. -/
def BufferState.check_cpu_read (st : BufferState) (qlo qhi : Nat) :
    Except ReadLockError Unit :=
  checkList checkCpuReadAccess (covered qlo qhi st.ranges)

/-- Match arm of `cpu_read_lock`: increment `cpu_reads` of a `Shared` entry,
anything else is `unreachable!`. -/
def cpuReadLockAccess : CurrentAccess → Option CurrentAccess
  | .shared c g => some (.shared (c + 1) g)
  | _ => none

/-- Rust `BufferState::cpu_read_lock`. -/
def BufferState.cpu_read_lock (st : BufferState) (qlo qhi : Nat) : Option BufferState :=
  lockWith cpuReadLockAccess st qlo qhi

/-- Match arm of `cpu_read_unlock`: decrement `cpu_reads` of a `Shared`
entry, anything else is `unreachable!`. -/
def cpuReadUnlockAccess : CurrentAccess → Option CurrentAccess
  | .shared c g => some (.shared (c - 1) g)
  | _ => none

/-- Rust `BufferState::cpu_read_unlock`. -/
def BufferState.cpu_read_unlock (st : BufferState) (qlo qhi : Nat) : Option BufferState :=
  lockWith cpuReadUnlockAccess st qlo qhi

/-- Match arms of `check_cpu_write`, in source order: `CpuExclusive` yields
`CpuLocked`; `GpuExclusive` yields `GpuLocked`; `Shared {0, 0}` is allowed;
`Shared` with `cpu_reads > 0` yields `CpuLocked`; the remaining `Shared`
(nonzero `gpu_reads`) yields `GpuLocked`. -/
def checkCpuWriteAccess : CurrentAccess → Option WriteLockError
  | .cpuExclusive => some .CpuLocked
  | .gpuExclusive _ _ => some .GpuLocked
  | .shared 0 0 => none
  | .shared (_ + 1) _ => some .CpuLocked
  | .shared _ _ => some .GpuLocked

/-- Rust `BufferState::check_cpu_write`. -/
def BufferState.check_cpu_write (st : BufferState) (qlo qhi : Nat) :
    Except WriteLockError Unit :=
  checkList checkCpuWriteAccess (covered qlo qhi st.ranges)

/-- Rust `BufferState::cpu_write_lock`: unconditionally sets every covered entry
to `CpuExclusive` (the source has no panic branch here). -/
def BufferState.cpu_write_lock (st : BufferState) (qlo qhi : Nat) : BufferState :=
  ⟨(splitAt qhi (splitAt qlo st.ranges)).map fun e =>
    if overlapsB qlo qhi e then ⟨e.lo, e.hi, .cpuExclusive⟩ else e⟩

/-- Match arm of `cpu_write_unlock`: a `CpuExclusive` entry reverts to
`Shared {0, 0}`, anything else is `unreachable!`. -/
def cpuWriteUnlockAccess : CurrentAccess → Option CurrentAccess
  | .cpuExclusive => some (.shared 0 0)
  | _ => none

/-- Rust `BufferState::cpu_write_unlock`. -/
def BufferState.cpu_write_unlock (st : BufferState) (qlo qhi : Nat) : Option BufferState :=
  lockWith cpuWriteUnlockAccess st qlo qhi

/-- Match arms of `check_gpu_read`: only `Shared` is allowed, anything else
yields `AlreadyInUse`. -/
def checkGpuReadAccess : CurrentAccess → Option AccessError
  | .shared _ _ => none
  | _ => some .AlreadyInUse

/-- Rust `BufferState::check_gpu_read`. -/
def BufferState.check_gpu_read (st : BufferState) (qlo qhi : Nat) :
    Except AccessError Unit :=
  checkList checkGpuReadAccess (covered qlo qhi st.ranges)

/-- Match arms of `gpu_read_lock`: increment `gpu_reads` of a `GpuExclusive`
or `Shared` entry; `CpuExclusive` is `unreachable!`. -/
def gpuReadLockAccess : CurrentAccess → Option CurrentAccess
  | .gpuExclusive g w => some (.gpuExclusive (g + 1) w)
  | .shared c g => some (.shared c (g + 1))
  | .cpuExclusive => none

/-- Rust `BufferState::gpu_read_lock`. -/
def BufferState.gpu_read_lock (st : BufferState) (qlo qhi : Nat) : Option BufferState :=
  lockWith gpuReadLockAccess st qlo qhi

/-- Match arms of `gpu_read_unlock`: decrement `gpu_reads` of a
`GpuExclusive` or `Shared` entry; `CpuExclusive` is `unreachable!`. -/
def gpuReadUnlockAccess : CurrentAccess → Option CurrentAccess
  | .gpuExclusive g w => some (.gpuExclusive (g - 1) w)
  | .shared c g => some (.shared c (g - 1))
  | .cpuExclusive => none

/-- Rust `BufferState::gpu_read_unlock`. -/
def BufferState.gpu_read_unlock (st : BufferState) (qlo qhi : Nat) : Option BufferState :=
  lockWith gpuReadUnlockAccess st qlo qhi

/-- Match arms of `check_gpu_write`: only `Shared {0, 0}` is allowed,
anything else yields `AlreadyInUse`. -/
def checkGpuWriteAccess : CurrentAccess → Option AccessError
  | .shared 0 0 => none
  | _ => some .AlreadyInUse

/-- Rust `BufferState::check_gpu_write`. -/
def BufferState.check_gpu_write (st : BufferState) (qlo qhi : Nat) :
    Except AccessError Unit :=
  checkList checkGpuWriteAccess (covered qlo qhi st.ranges)

/-- Match arms of `gpu_write_lock`: increment `gpu_writes` of a
`GpuExclusive` entry; a `Shared` entry with `cpu_reads = 0` becomes
`GpuExclusive { gpu_reads, gpu_writes: 1 }`, carrying `gpu_reads` over;
anything else is `unreachable!`. -/
def gpuWriteLockAccess : CurrentAccess → Option CurrentAccess
  | .gpuExclusive g w => some (.gpuExclusive g (w + 1))
  | .shared 0 g => some (.gpuExclusive g 1)
  | _ => none

/-- Rust `BufferState::gpu_write_lock`. -/
def BufferState.gpu_write_lock (st : BufferState) (qlo qhi : Nat) : Option BufferState :=
  lockWith gpuWriteLockAccess st qlo qhi

/-- Match arms of `gpu_write_unlock`, in source order: a `GpuExclusive`
entry with `gpu_writes = 1` reverts to `Shared { cpu_reads: 0, gpu_reads }`;
any other `GpuExclusive` entry decrements `gpu_writes`; anything else is
`unreachable!`. -/
def gpuWriteUnlockAccess : CurrentAccess → Option CurrentAccess
  | .gpuExclusive g 1 => some (.shared 0 g)
  | .gpuExclusive g w => some (.gpuExclusive g (w - 1))
  | _ => none

/-- Rust `BufferState::gpu_write_unlock`. -/
def BufferState.gpu_write_unlock (st : BufferState) (qlo qhi : Nat) : Option BufferState :=
  lockWith gpuWriteUnlockAccess st qlo qhi

/-- The access state governing byte `p`: the value of the first entry whose
range contains `p`. -/
def accessAtL : List MapEntry → Nat → Option CurrentAccess
  | [], _ => none
  | e :: rest, p =>
    if e.lo ≤ p ∧ p < e.hi then some e.access else accessAtL rest p

/-- The access state governing byte `p` of a buffer. -/
def BufferState.accessAt (st : BufferState) (p : Nat) : Option CurrentAccess :=
  accessAtL st.ranges p

/-- The ranges `[lo, hi)` of the entries, in order, tile `[from, size)`:
consecutive, nonempty, gap-free.  `partitions size rs` below instantiates
this at `from = 0`, the §3 invariant that the ranges partition
`[0, resource_size)`. -/
def coversFrom : Nat → Nat → List MapEntry → Bool
  | lo, size, [] => lo == size
  | lo, size, e :: rest => e.lo == lo && lo < e.hi && coversFrom e.hi size rest

/-- The §3 invariant: the recorded ranges partition `[0, size)` with no
gaps and no overlaps. -/
def partitions (size : Nat) (st : BufferState) : Bool :=
  coversFrom 0 size st.ranges

/-! ### Helper lemmas about the check loop -/

theorem checkList_ok_iff {ε : Type} (f : CurrentAccess → Option ε) (l : List MapEntry) :
    checkList f l = .ok () ↔ ∀ e ∈ l, f e.access = none := by
  induction l with
  | nil => simp [checkList]
  | cons e rest ih =>
    cases h : f e.access with
    | none => simp [checkList, h, ih]
    | some err => simp [checkList, h]

theorem checkList_error_imp {ε : Type} (f : CurrentAccess → Option ε) (l : List MapEntry)
    (err : ε) (hc : checkList f l = .error err) : ∃ e ∈ l, f e.access = some err := by
  induction l with
  | nil => simp [checkList] at hc
  | cons e rest ih =>
    cases h : f e.access with
    | none =>
      simp only [checkList, h] at hc
      obtain ⟨e', he', hf⟩ := ih hc
      exact ⟨e', List.mem_cons_of_mem _ he', hf⟩
    | some err2 =>
      simp only [checkList, h, Except.error.injEq] at hc
      exact ⟨e, List.mem_cons_self _ _, by rw [h, hc]⟩

theorem checkList_error_of {ε : Type} (f : CurrentAccess → Option ε) (l : List MapEntry)
    (err : ε) (hall : ∀ e ∈ l, f e.access = none ∨ f e.access = some err)
    (hex : ∃ e ∈ l, f e.access = some err) : checkList f l = .error err := by
  induction l with
  | nil => simp at hex
  | cons e rest ih =>
    rcases hall e (List.mem_cons_self _ _) with h | h
    · simp only [checkList, h]
      apply ih
      · exact fun e' he' => hall e' (List.mem_cons_of_mem _ he')
      · obtain ⟨e', he', hf⟩ := hex
        rcases List.mem_cons.mp he' with rfl | he'
        · rw [h] at hf; cases hf
        · exact ⟨e', he', hf⟩
    · simp [checkList, h]

/-! ### Helper lemmas about splitting -/

theorem splitEntry_sub (pos : Nat) (e : MapEntry) :
    ∀ e' ∈ splitEntry pos e, e'.access = e.access ∧ e.lo ≤ e'.lo ∧ e'.hi ≤ e.hi := by
  intro e' he'
  unfold splitEntry at he'
  split at he' <;> rename_i h
  · simp only [List.mem_cons, List.not_mem_nil, or_false] at he'
    rcases he' with rfl | rfl
    · exact ⟨rfl, le_refl _, le_of_lt h.2⟩
    · exact ⟨rfl, le_of_lt h.1, le_refl _⟩
  · simp only [List.mem_cons, List.not_mem_nil, or_false] at he'
    subst he'
    exact ⟨rfl, le_refl _, le_refl _⟩

theorem overlapsB_of_sub (qlo qhi : Nat) (e e' : MapEntry) (hlo : e.lo ≤ e'.lo)
    (hhi : e'.hi ≤ e.hi) (hov : overlapsB qlo qhi e' = true) : overlapsB qlo qhi e = true := by
  simp only [overlapsB, decide_eq_true_eq] at *
  omega

theorem splitEntry_sup (pos : Nat) (e : MapEntry) (qlo qhi : Nat)
    (hov : overlapsB qlo qhi e = true) :
    ∃ e' ∈ splitEntry pos e, overlapsB qlo qhi e' = true ∧ e'.access = e.access := by
  simp only [overlapsB, decide_eq_true_eq] at hov
  unfold splitEntry
  split <;> rename_i h
  · by_cases hc : max qlo e.lo < pos
    · refine ⟨⟨e.lo, pos, e.access⟩, by simp, ?_, rfl⟩
      simp only [overlapsB, decide_eq_true_eq]
      omega
    · refine ⟨⟨pos, e.hi, e.access⟩, by simp, ?_, rfl⟩
      simp only [overlapsB, decide_eq_true_eq]
      omega
  · exact ⟨e, by simp, by simp only [overlapsB, decide_eq_true_eq]; omega, rfl⟩

theorem covered_splitAt_sub (qlo qhi pos : Nat) (rs : List MapEntry) :
    ∀ e' ∈ covered qlo qhi (splitAt pos rs), ∃ e ∈ covered qlo qhi rs, e'.access = e.access := by
  intro e' he'
  simp only [covered, List.mem_filter, splitAt, List.mem_flatMap] at he'
  obtain ⟨⟨e, he, hsplit⟩, hov⟩ := he'
  obtain ⟨hacc, hlo, hhi⟩ := splitEntry_sub pos e e' hsplit
  exact ⟨e, List.mem_filter.mpr ⟨he, overlapsB_of_sub qlo qhi e e' hlo hhi hov⟩, hacc⟩

theorem covered_splitAt_sup (qlo qhi pos : Nat) (rs : List MapEntry) :
    ∀ e ∈ covered qlo qhi rs, ∃ e' ∈ covered qlo qhi (splitAt pos rs), e'.access = e.access := by
  intro e he
  simp only [covered, List.mem_filter] at he
  obtain ⟨he, hov⟩ := he
  obtain ⟨e', he', hov', hacc⟩ := splitEntry_sup pos e qlo qhi hov
  refine ⟨e', List.mem_filter.mpr ⟨?_, hov'⟩, hacc⟩
  exact List.mem_flatMap.mpr ⟨e, he, he'⟩

theorem accessAtL_append (l1 l2 : List MapEntry) (p : Nat) :
    accessAtL (l1 ++ l2) p = ((accessAtL l1 p).or (accessAtL l2 p)) := by
  induction l1 with
  | nil => simp [accessAtL]
  | cons e rest ih =>
    by_cases h : e.lo ≤ p ∧ p < e.hi
    · simp [accessAtL, h]
    · simp [accessAtL, h, ih]

theorem accessAtL_splitEntry (pos : Nat) (e : MapEntry) (p : Nat) :
    accessAtL (splitEntry pos e) p = accessAtL [e] p := by
  unfold splitEntry
  split <;> rename_i h
  · by_cases h1 : e.lo ≤ p ∧ p < pos
    · simp only [accessAtL]
      rw [if_pos h1, if_pos ⟨h1.1, lt_trans h1.2 h.2⟩]
    · by_cases h2 : pos ≤ p ∧ p < e.hi
      · simp only [accessAtL]
        rw [if_neg h1, if_pos h2, if_pos ⟨le_trans (le_of_lt h.1) h2.1, h2.2⟩]
      · simp only [accessAtL]
        rw [if_neg h1, if_neg h2, if_neg (by omega)]
  · rfl

theorem accessAtL_splitAt (pos : Nat) (rs : List MapEntry) (p : Nat) :
    accessAtL (splitAt pos rs) p = accessAtL rs p := by
  induction rs with
  | nil => rfl
  | cons e rest ih =>
    show accessAtL (splitEntry pos e ++ splitAt pos rest) p = _
    rw [accessAtL_append, ih, accessAtL_splitEntry]
    by_cases h : e.lo ≤ p ∧ p < e.hi
    · simp [accessAtL, h]
    · simp [accessAtL, h]

/-! ### No entry crosses a split point -/

/-- No entry of the list strictly contains the point `pos`. -/
def noCross (pos : Nat) (rs : List MapEntry) : Prop :=
  ∀ e ∈ rs, ¬(e.lo < pos ∧ pos < e.hi)

theorem noCross_splitAt (pos : Nat) (rs : List MapEntry) : noCross pos (splitAt pos rs) := by
  intro e' he'
  simp only [splitAt, List.mem_flatMap] at he'
  obtain ⟨e, _, hsplit⟩ := he'
  unfold splitEntry at hsplit
  split at hsplit <;> rename_i h
  · simp only [List.mem_cons, List.not_mem_nil, or_false] at hsplit
    rcases hsplit with rfl | rfl <;> simp
  · simp only [List.mem_cons, List.not_mem_nil, or_false] at hsplit
    subst hsplit
    exact h

theorem noCross_splitAt_mono (q pos : Nat) (rs : List MapEntry) (h : noCross q rs) :
    noCross q (splitAt pos rs) := by
  intro e' he'
  simp only [splitAt, List.mem_flatMap] at he'
  obtain ⟨e, he, hsplit⟩ := he'
  obtain ⟨_, hlo, hhi⟩ := splitEntry_sub pos e e' hsplit
  have := h e he
  omega

/-- The per-entry update performed by a lock/unlock body, expressed as a
total function (under the no-panic hypotheses `f` is defined on every
covered access, and `getD` is never used at its default). -/
def updEntry (f : CurrentAccess → Option CurrentAccess) (qlo qhi : Nat) (e : MapEntry) :
    MapEntry :=
  if overlapsB qlo qhi e then ⟨e.lo, e.hi, (f e.access).getD e.access⟩ else e

theorem updEntry_lo (f : CurrentAccess → Option CurrentAccess) (qlo qhi : Nat) (e : MapEntry) :
    (updEntry f qlo qhi e).lo = e.lo := by
  unfold updEntry; split <;> rfl

theorem updEntry_hi (f : CurrentAccess → Option CurrentAccess) (qlo qhi : Nat) (e : MapEntry) :
    (updEntry f qlo qhi e).hi = e.hi := by
  unfold updEntry; split <;> rfl

theorem noCross_map_upd (q : Nat) (f : CurrentAccess → Option CurrentAccess) (qlo qhi : Nat)
    (rs : List MapEntry) (h : noCross q rs) : noCross q (rs.map (updEntry f qlo qhi)) := by
  intro e' he'
  obtain ⟨e, he, rfl⟩ := List.mem_map.mp he'
  rw [updEntry_lo, updEntry_hi]
  exact h e he

/-! ### The lock/unlock loop -/

theorem lockEach_eq_map (f : CurrentAccess → Option CurrentAccess) (qlo qhi : Nat)
    (rs : List MapEntry) (h : ∀ e ∈ rs, overlapsB qlo qhi e = true → (f e.access).isSome) :
    lockEach f qlo qhi rs = some (rs.map (updEntry f qlo qhi)) := by
  induction rs with
  | nil => rfl
  | cons e rest ih =>
    have hrest := ih fun e' he' => h e' (List.mem_cons_of_mem _ he')
    by_cases hov : overlapsB qlo qhi e = true
    · obtain ⟨a, ha⟩ := Option.isSome_iff_exists.mp (h e (List.mem_cons_self _ _) hov)
      simp [lockEach, hov, ha, hrest, updEntry]
    · simp only [Bool.not_eq_true] at hov
      simp [lockEach, hov, hrest, updEntry]

theorem lockEach_none (f : CurrentAccess → Option CurrentAccess) (qlo qhi : Nat)
    (rs : List MapEntry) (e : MapEntry) (he : e ∈ rs) (hov : overlapsB qlo qhi e = true)
    (hf : f e.access = none) : lockEach f qlo qhi rs = none := by
  induction rs with
  | nil => cases he
  | cons e0 rest ih =>
    rcases List.mem_cons.mp he with rfl | he
    · simp [lockEach, hov, hf]
    · simp only [lockEach]
      rw [ih he]
      cases hh : (if overlapsB qlo qhi e0 = true then (f e0.access).map
          fun a => MapEntry.mk e0.lo e0.hi a else some e0) <;> simp

theorem lockEach_some_eq (f : CurrentAccess → Option CurrentAccess) (qlo qhi : Nat)
    (rs : List MapEntry) (l : List MapEntry) (h : lockEach f qlo qhi rs = some l) :
    l = rs.map (updEntry f qlo qhi) := by
  induction rs generalizing l with
  | nil => simp only [lockEach, Option.some.injEq] at h; simp [← h]
  | cons e rest ih =>
    simp only [lockEach] at h
    cases hrest : lockEach f qlo qhi rest with
    | none => rw [hrest] at h; split at h <;> simp_all
    | some l2 =>
      rw [hrest] at h
      by_cases hov : overlapsB qlo qhi e = true
      · cases hf : f e.access with
        | none => rw [if_pos hov, hf] at h; simp at h
        | some a =>
          rw [if_pos hov, hf] at h
          simp only [Option.map_some'] at h
          cases h
          simp [ih l2 hrest, updEntry, hov, hf]
      · simp only [Bool.not_eq_true] at hov
        rw [hov] at h
        simp only [Bool.false_eq_true, if_false] at h
        cases h
        simp [ih l2 hrest, updEntry, hov]

theorem accessAtL_map_upd_in (f : CurrentAccess → Option CurrentAccess) (qlo qhi : Nat)
    (l : List MapEntry) (h : ∀ e ∈ l, overlapsB qlo qhi e = true → (f e.access).isSome)
    (p : Nat) (h1 : qlo ≤ p) (h2 : p < qhi) :
    accessAtL (l.map (updEntry f qlo qhi)) p = (accessAtL l p).bind f := by
  induction l with
  | nil => rfl
  | cons e rest ih =>
    have ihr := ih fun e' he' => h e' (List.mem_cons_of_mem _ he')
    by_cases hov : overlapsB qlo qhi e = true
    · obtain ⟨a, ha⟩ := Option.isSome_iff_exists.mp (h e (List.mem_cons_self _ _) hov)
      by_cases hc : e.lo ≤ p ∧ p < e.hi
      · simp [accessAtL, updEntry, hov, hc, ha]
      · simp [accessAtL, updEntry, hov, hc, ihr]
    · by_cases hc : e.lo ≤ p ∧ p < e.hi
      · exfalso
        apply hov
        simp only [overlapsB, decide_eq_true_eq]
        omega
      · simp only [Bool.not_eq_true] at hov
        simp [accessAtL, updEntry, hov, hc, ihr]

theorem accessAtL_map_upd_out (f : CurrentAccess → Option CurrentAccess) (qlo qhi : Nat)
    (l : List MapEntry) (hno1 : noCross qlo l) (hno2 : noCross qhi l)
    (p : Nat) (hp : p < qlo ∨ qhi ≤ p) :
    accessAtL (l.map (updEntry f qlo qhi)) p = accessAtL l p := by
  induction l with
  | nil => rfl
  | cons e rest ih =>
    have ihr := ih (fun e' he' => hno1 e' (List.mem_cons_of_mem _ he'))
      (fun e' he' => hno2 e' (List.mem_cons_of_mem _ he'))
    have hc1 := hno1 e (List.mem_cons_self _ _)
    have hc2 := hno2 e (List.mem_cons_self _ _)
    by_cases hc : e.lo ≤ p ∧ p < e.hi
    · have hov : overlapsB qlo qhi e = false := by
        simp only [overlapsB, decide_eq_false_iff_not]
        omega
      simp [accessAtL, updEntry, hov, hc]
    · simp [accessAtL, updEntry_lo, updEntry_hi, hc, ihr]

theorem lockWith_spec (f : CurrentAccess → Option CurrentAccess) (st : BufferState)
    (qlo qhi : Nat) (h : ∀ a ∈ st.coveredAccesses qlo qhi, (f a).isSome) :
    ∃ st', lockWith f st qlo qhi = some st' ∧
      st'.ranges = (splitAt qhi (splitAt qlo st.ranges)).map (updEntry f qlo qhi) ∧
      (∀ p, qlo ≤ p → p < qhi → st'.accessAt p = (st.accessAt p).bind f) ∧
      (∀ p, p < qlo ∨ qhi ≤ p → st'.accessAt p = st.accessAt p) := by
  have hcov2 : ∀ e ∈ splitAt qhi (splitAt qlo st.ranges), overlapsB qlo qhi e = true →
      (f e.access).isSome := by
    intro e he hov
    have he2 : e ∈ covered qlo qhi (splitAt qhi (splitAt qlo st.ranges)) :=
      List.mem_filter.mpr ⟨he, hov⟩
    obtain ⟨e1, he1, hacc1⟩ := covered_splitAt_sub qlo qhi qhi (splitAt qlo st.ranges) e he2
    obtain ⟨e0, he0, hacc0⟩ := covered_splitAt_sub qlo qhi qlo st.ranges e1 he1
    rw [hacc1, hacc0]
    exact h _ (List.mem_map.mpr ⟨e0, he0, rfl⟩)
  refine ⟨⟨(splitAt qhi (splitAt qlo st.ranges)).map (updEntry f qlo qhi)⟩, ?_, rfl, ?_, ?_⟩
  · unfold lockWith
    rw [lockEach_eq_map f qlo qhi _ hcov2]
    rfl
  · intro p h1 h2
    show accessAtL _ p = (accessAtL st.ranges p).bind f
    rw [accessAtL_map_upd_in f qlo qhi _ hcov2 p h1 h2, accessAtL_splitAt, accessAtL_splitAt]
  · intro p hp
    show accessAtL _ p = accessAtL st.ranges p
    rw [accessAtL_map_upd_out f qlo qhi _
        (noCross_splitAt_mono qlo qhi _ (noCross_splitAt qlo st.ranges))
        (noCross_splitAt qhi _) p hp,
      accessAtL_splitAt, accessAtL_splitAt]

theorem overlapsB_updEntry (f : CurrentAccess → Option CurrentAccess) (qlo qhi : Nat)
    (e : MapEntry) : overlapsB qlo qhi (updEntry f qlo qhi e) = overlapsB qlo qhi e := by
  unfold overlapsB
  rw [updEntry_lo, updEntry_hi]

theorem covered_map_upd (f : CurrentAccess → Option CurrentAccess) (qlo qhi : Nat)
    (rs : List MapEntry) :
    covered qlo qhi (rs.map (updEntry f qlo qhi)) =
      (covered qlo qhi rs).map (updEntry f qlo qhi) := by
  unfold covered
  rw [List.filter_map]
  congr 1
  apply List.filter_congr
  intro e _
  exact overlapsB_updEntry f qlo qhi e

theorem accessAtL_mem (rs : List MapEntry) (p : Nat) (a : CurrentAccess)
    (h : accessAtL rs p = some a) : ∃ e ∈ rs, e.lo ≤ p ∧ p < e.hi ∧ e.access = a := by
  induction rs with
  | nil => cases h
  | cons e rest ih =>
    by_cases hc : e.lo ≤ p ∧ p < e.hi
    · refine ⟨e, List.mem_cons_self _ _, hc.1, hc.2, ?_⟩
      simp only [accessAtL, if_pos hc, Option.some.injEq] at h
      exact h
    · simp only [accessAtL, if_neg hc] at h
      obtain ⟨e', he', h1, h2, h3⟩ := ih h
      exact ⟨e', List.mem_cons_of_mem _ he', h1, h2, h3⟩

theorem accessAt_mem_covered (st : BufferState) (qlo qhi p : Nat) (a : CurrentAccess)
    (h1 : qlo ≤ p) (h2 : p < qhi) (h : st.accessAt p = some a) :
    a ∈ st.coveredAccesses qlo qhi := by
  obtain ⟨e, he, hlo, hhi, rfl⟩ := accessAtL_mem st.ranges p a h
  refine List.mem_map.mpr ⟨e, List.mem_filter.mpr ⟨he, ?_⟩, rfl⟩
  simp only [overlapsB, decide_eq_true_eq]
  omega

theorem lockWith_roundtrip (f g : CurrentAccess → Option CurrentAccess) (st : BufferState)
    (qlo qhi : Nat)
    (h : ∀ a ∈ st.coveredAccesses qlo qhi, ∃ b, f a = some b ∧ g b = some a) :
    ∃ st1 st2, lockWith f st qlo qhi = some st1 ∧ lockWith g st1 qlo qhi = some st2 ∧
      ∀ p, st2.accessAt p = st.accessAt p := by
  have hf : ∀ a ∈ st.coveredAccesses qlo qhi, (f a).isSome := by
    intro a ha
    obtain ⟨b, hb, _⟩ := h a ha
    simp [hb]
  obtain ⟨st1, hlock1, hranges1, hin1, hout1⟩ := lockWith_spec f st qlo qhi hf
  have hg : ∀ b ∈ st1.coveredAccesses qlo qhi, (g b).isSome := by
    intro b hb
    obtain ⟨e', he', rfl⟩ := List.mem_map.mp hb
    rw [show st1.ranges = _ from hranges1, covered_map_upd] at he'
    obtain ⟨e2, he2, rfl⟩ := List.mem_map.mp he'
    obtain ⟨e1, he1, hacc1⟩ := covered_splitAt_sub qlo qhi qhi (splitAt qlo st.ranges) e2 he2
    obtain ⟨e0, he0, hacc0⟩ := covered_splitAt_sub qlo qhi qlo st.ranges e1 he1
    have hmem : e2.access ∈ st.coveredAccesses qlo qhi := by
      rw [hacc1, hacc0]
      exact List.mem_map.mpr ⟨e0, he0, rfl⟩
    obtain ⟨b0, hb0, hgb0⟩ := h _ hmem
    have hov2 : overlapsB qlo qhi e2 = true := (List.mem_filter.mp he2).2
    simp [updEntry, hov2, hb0, hgb0]
  obtain ⟨st2, hlock2, hranges2, hin2, hout2⟩ := lockWith_spec g st1 qlo qhi hg
  refine ⟨st1, st2, hlock1, hlock2, ?_⟩
  intro p
  by_cases hp : qlo ≤ p ∧ p < qhi
  · rw [hin2 p hp.1 hp.2, hin1 p hp.1 hp.2]
    cases hap : st.accessAt p with
    | none => rfl
    | some a =>
      have hmem := accessAt_mem_covered st qlo qhi p a hp.1 hp.2 hap
      obtain ⟨b, hb, hgb⟩ := h a hmem
      simp [hb, hgb]
  · have hp' : p < qlo ∨ qhi ≤ p := by omega
    rw [hout2 p hp', hout1 p hp']

theorem lockWith_none (f : CurrentAccess → Option CurrentAccess) (st : BufferState)
    (qlo qhi : Nat) (a : CurrentAccess) (ha : a ∈ st.coveredAccesses qlo qhi)
    (hf : f a = none) : lockWith f st qlo qhi = none := by
  obtain ⟨e0, he0, rfl⟩ := List.mem_map.mp ha
  obtain ⟨e1, he1, hacc1⟩ := covered_splitAt_sup qlo qhi qlo st.ranges e0 he0
  obtain ⟨e2, he2, hacc2⟩ := covered_splitAt_sup qlo qhi qhi (splitAt qlo st.ranges) e1 he1
  have hm := List.mem_filter.mp he2
  unfold lockWith
  rw [lockEach_none f qlo qhi _ e2 hm.1 hm.2 (by rw [hacc2, hacc1]; exact hf)]
  rfl

theorem lockWith_isSome_iff (f : CurrentAccess → Option CurrentAccess) (st : BufferState)
    (qlo qhi : Nat) :
    (lockWith f st qlo qhi).isSome ↔ ∀ a ∈ st.coveredAccesses qlo qhi, (f a).isSome := by
  constructor
  · intro hs a ha
    by_contra hnone
    rw [Option.not_isSome_iff_eq_none] at hnone
    rw [lockWith_none f st qlo qhi a ha hnone] at hs
    cases hs
  · intro h
    obtain ⟨st', heq, _⟩ := lockWith_spec f st qlo qhi h
    rw [heq]
    rfl

theorem check_ok_iff_covered {ε : Type} (f : CurrentAccess → Option ε) (st : BufferState)
    (qlo qhi : Nat) :
    checkList f (covered qlo qhi st.ranges) = .ok () ↔
      ∀ a ∈ st.coveredAccesses qlo qhi, f a = none := by
  rw [checkList_ok_iff]
  constructor
  · intro h a ha
    obtain ⟨e, he, rfl⟩ := List.mem_map.mp ha
    exact h e he
  · intro h e he
    exact h e.access (List.mem_map.mpr ⟨e, he, rfl⟩)

/-! ### The partition invariant -/

theorem coversFrom_le (lo size : Nat) (rs : List MapEntry)
    (h : coversFrom lo size rs = true) : lo ≤ size := by
  induction rs generalizing lo with
  | nil => simp only [coversFrom, beq_iff_eq] at h; omega
  | cons e rest ih =>
    simp only [coversFrom, Bool.and_eq_true, beq_iff_eq, decide_eq_true_eq] at h
    have := ih e.hi h.2
    omega

theorem coversFrom_splitAt (lo size pos : Nat) (rs : List MapEntry)
    (h : coversFrom lo size rs = true) : coversFrom lo size (splitAt pos rs) = true := by
  induction rs generalizing lo with
  | nil => exact h
  | cons e rest ih =>
    simp only [coversFrom, Bool.and_eq_true, beq_iff_eq, decide_eq_true_eq] at h
    obtain ⟨⟨hlo, hlt⟩, hrest⟩ := h
    have ih' := ih e.hi hrest
    show coversFrom lo size (splitEntry pos e ++ splitAt pos rest) = true
    unfold splitEntry
    split <;> rename_i hsp
    · simp only [List.cons_append, List.nil_append, coversFrom, Bool.and_eq_true,
        beq_iff_eq, decide_eq_true_eq]
      exact ⟨⟨hlo, by omega⟩, ⟨trivial, hsp.2⟩, ih'⟩
    · simp only [List.cons_append, List.nil_append, coversFrom, Bool.and_eq_true,
        beq_iff_eq, decide_eq_true_eq]
      exact ⟨⟨hlo, hlt⟩, ih'⟩

theorem coversFrom_map (lo size : Nat) (rs : List MapEntry) (u : MapEntry → MapEntry)
    (hu : ∀ e, (u e).lo = e.lo ∧ (u e).hi = e.hi) (h : coversFrom lo size rs = true) :
    coversFrom lo size (rs.map u) = true := by
  induction rs generalizing lo with
  | nil => exact h
  | cons e rest ih =>
    simp only [coversFrom, Bool.and_eq_true, beq_iff_eq, decide_eq_true_eq] at h
    obtain ⟨⟨hlo, hlt⟩, hrest⟩ := h
    simp only [List.map_cons, coversFrom, Bool.and_eq_true, beq_iff_eq, decide_eq_true_eq,
      (hu e).1, (hu e).2]
    exact ⟨⟨hlo, hlt⟩, ih e.hi hrest⟩

theorem coversFrom_mem_bounds (lo size : Nat) (rs : List MapEntry)
    (h : coversFrom lo size rs = true) :
    ∀ e ∈ rs, lo ≤ e.lo ∧ e.lo < e.hi ∧ e.hi ≤ size := by
  induction rs generalizing lo with
  | nil => intro e he; cases he
  | cons e0 rest ih =>
    intro e he
    simp only [coversFrom, Bool.and_eq_true, beq_iff_eq, decide_eq_true_eq] at h
    obtain ⟨⟨hlo, hlt⟩, hrest⟩ := h
    rcases List.mem_cons.mp he with rfl | he
    · exact ⟨by omega, by omega, coversFrom_le e.hi size rest hrest⟩
    · have := ih e0.hi hrest e he
      exact ⟨by omega, this.2.1, this.2.2⟩

theorem coversFrom_exists (lo size : Nat) (rs : List MapEntry)
    (h : coversFrom lo size rs = true) (p : Nat) (h1 : lo ≤ p) (h2 : p < size) :
    ∃ e ∈ rs, e.lo ≤ p ∧ p < e.hi := by
  induction rs generalizing lo with
  | nil => simp only [coversFrom, beq_iff_eq] at h; omega
  | cons e rest ih =>
    simp only [coversFrom, Bool.and_eq_true, beq_iff_eq, decide_eq_true_eq] at h
    obtain ⟨⟨hlo, hlt⟩, hrest⟩ := h
    by_cases hc : p < e.hi
    · exact ⟨e, List.mem_cons_self _ _, by omega, hc⟩
    · obtain ⟨e', he', h'⟩ := ih e.hi hrest (by omega)
      exact ⟨e', List.mem_cons_of_mem _ he', h'⟩

theorem coversFrom_accessAt (lo size : Nat) (rs : List MapEntry)
    (h : coversFrom lo size rs = true) (e : MapEntry) (he : e ∈ rs) (p : Nat)
    (h1 : e.lo ≤ p) (h2 : p < e.hi) : accessAtL rs p = some e.access := by
  induction rs generalizing lo with
  | nil => cases he
  | cons e0 rest ih =>
    simp only [coversFrom, Bool.and_eq_true, beq_iff_eq, decide_eq_true_eq] at h
    obtain ⟨⟨hlo, hlt⟩, hrest⟩ := h
    rcases List.mem_cons.mp he with rfl | he
    · simp [accessAtL, h1, h2]
    · have hb := coversFrom_mem_bounds e0.hi size rest hrest e he
      have hne : ¬(e0.lo ≤ p ∧ p < e0.hi) := by omega
      simp only [accessAtL, if_neg hne]
      exact ih e0.hi hrest he

/-! ### Byte-level characterization of the checks -/

theorem check_ok_of_accessAt {ε : Type} (fok : CurrentAccess → Option ε) (st : BufferState)
    (size qlo qhi : Nat) (hpart : partitions size st = true)
    (h : ∀ p, qlo ≤ p → p < qhi → ∀ a, st.accessAt p = some a → fok a = none) :
    checkList fok (covered qlo qhi st.ranges) = .ok () := by
  rw [checkList_ok_iff]
  intro e he
  have hm := List.mem_filter.mp he
  have hov := hm.2
  simp only [overlapsB, decide_eq_true_eq] at hov
  have hb := coversFrom_mem_bounds 0 size st.ranges hpart e hm.1
  refine h (max qlo e.lo) (le_max_left _ _) (by omega) e.access ?_
  exact coversFrom_accessAt 0 size st.ranges hpart e hm.1 (max qlo e.lo)
    (le_max_right _ _) (by omega)

theorem check_error_of_accessAt {ε : Type} (fok : CurrentAccess → Option ε) (err : ε)
    (st : BufferState) (size qlo qhi : Nat) (hpart : partitions size st = true)
    (hall : ∀ p, qlo ≤ p → p < qhi → ∀ a, st.accessAt p = some a →
      fok a = none ∨ fok a = some err)
    (p0 : Nat) (hp01 : qlo ≤ p0) (hp02 : p0 < qhi) (a0 : CurrentAccess)
    (ha0 : st.accessAt p0 = some a0) (hf0 : fok a0 = some err) :
    checkList fok (covered qlo qhi st.ranges) = .error err := by
  apply checkList_error_of
  · intro e he
    have hm := List.mem_filter.mp he
    have hov := hm.2
    simp only [overlapsB, decide_eq_true_eq] at hov
    have hb := coversFrom_mem_bounds 0 size st.ranges hpart e hm.1
    refine hall (max qlo e.lo) (le_max_left _ _) (by omega) e.access ?_
    exact coversFrom_accessAt 0 size st.ranges hpart e hm.1 (max qlo e.lo)
      (le_max_right _ _) (by omega)
  · obtain ⟨e, he, h1, h2, h3⟩ := accessAtL_mem st.ranges p0 a0 ha0
    refine ⟨e, List.mem_filter.mpr ⟨he, ?_⟩, by rw [h3]; exact hf0⟩
    simp only [overlapsB, decide_eq_true_eq]
    omega

theorem accessAt_new (size p : Nat) :
    (BufferState.new size).accessAt p = if p < size then some (.shared 0 0) else none := by
  show accessAtL [⟨0, size, .shared 0 0⟩] p = _
  by_cases h : p < size
  · simp [accessAtL, h, Nat.zero_le]
  · simp [accessAtL, h, Nat.zero_le]

theorem partitions_new (size : Nat) (h : 0 < size) :
    partitions size (BufferState.new size) = true := by
  simp [partitions, BufferState.new, coversFrom, h]

theorem cpu_write_lock_eq (st : BufferState) (qlo qhi : Nat) :
    lockWith (fun _ => some .cpuExclusive) st qlo qhi = some (st.cpu_write_lock qlo qhi) := by
  unfold lockWith BufferState.cpu_write_lock
  rw [lockEach_eq_map _ _ _ _ (by intro e _ _; rfl)]
  rfl

theorem partitions_lockWith (f : CurrentAccess → Option CurrentAccess) (size : Nat)
    (st st' : BufferState) (qlo qhi : Nat) (hpart : partitions size st = true)
    (h : lockWith f st qlo qhi = some st') : partitions size st' = true := by
  unfold lockWith at h
  cases hl : lockEach f qlo qhi (splitAt qhi (splitAt qlo st.ranges)) with
  | none => rw [hl] at h; cases h
  | some l =>
    rw [hl] at h
    cases h
    show coversFrom 0 size l = true
    rw [lockEach_some_eq _ _ _ _ _ hl]
    exact coversFrom_map _ _ _ _ (fun e => ⟨updEntry_lo _ _ _ _, updEntry_hi _ _ _ _⟩)
      (coversFrom_splitAt _ _ _ _ (coversFrom_splitAt _ _ _ _ hpart))

theorem coveredAccesses_new (size qlo qhi : Nat) (a : CurrentAccess)
    (ha : a ∈ (BufferState.new size).coveredAccesses qlo qhi) : a = .shared 0 0 := by
  simp only [BufferState.coveredAccesses, covered, BufferState.new, List.mem_map,
    List.mem_filter] at ha
  obtain ⟨e, ⟨he, _⟩, rfl⟩ := ha
  simp only [List.mem_cons, List.not_mem_nil, or_false] at he
  subst he
  rfl

/-! ### State predicates used in the claim statements -/

/-- The access is a `Shared` state (any counts). -/
def isSharedB : CurrentAccess → Bool
  | .shared _ _ => true
  | _ => false

/-- The access is a `GpuExclusive` state (any counts). -/
def isGpuExclusiveB : CurrentAccess → Bool
  | .gpuExclusive _ _ => true
  | _ => false

/-- The `CpuLocked` condition of the spec for `check_cpu_write`:
`CpuExclusive`, or `Shared` with nonzero `cpu_reads`. -/
def isCpuLockedConflictB : CurrentAccess → Bool
  | .cpuExclusive => true
  | .shared (_ + 1) _ => true
  | _ => false

/-- The `GpuLocked` condition of the spec for `check_cpu_write`:
`GpuExclusive`, or `Shared` with nonzero `gpu_reads`. -/
def isGpuLockedConflictB : CurrentAccess → Bool
  | .gpuExclusive _ _ => true
  | .shared _ (_ + 1) => true
  | _ => false

/-- The set of accesses on which `gpu_write_lock` does not panic:
`GpuExclusive`, or `Shared` with `cpu_reads = 0` (any `gpu_reads`). -/
def isGpuWritableB : CurrentAccess → Bool
  | .gpuExclusive _ _ => true
  | .shared 0 _ => true
  | _ => false

/-- The effect of `gpu_read_lock` on one access value: increment
`gpu_reads` (on `Shared` and `GpuExclusive` alike). -/
def bumpGpuReads : CurrentAccess → CurrentAccess
  | .gpuExclusive g w => .gpuExclusive (g + 1) w
  | .shared c g => .shared c (g + 1)
  | .cpuExclusive => .cpuExclusive

/-! ### The CPU-accessible buffer wrappers (`src/buffer/cpu_access.rs`) -/

/-- The parts of `CpuAccessibleBuffer` relevant to locking: the byte size,
and the `BufferState` of its inner `UnsafeBuffer`.  Its `BufferAccess::inner`
impl reports `offset = 0` and `size()` the full inner size, so `read` and
`write` operate on `buffer_range = 0..size`. -/
structure CpuAccessibleBuffer where
  size : Nat
  state : BufferState
deriving DecidableEq, Repr

/-- Rust `CpuAccessibleBuffer::read`: `check_cpu_read` over the full range, then
(on success) `cpu_read_lock` over the full range.  The error path returns
before any mutation, so the pre-state is untouched on `Err`.  The inner
`Option` models the `unsafe` lock call (`none` = panic). -/
def CpuAccessibleBuffer.read (b : CpuAccessibleBuffer) :
    Except ReadLockError (Option BufferState) :=
  match b.state.check_cpu_read 0 b.size with
  | .error e => .error e
  | .ok _ => .ok (b.state.cpu_read_lock 0 b.size)

/-- Rust `CpuAccessibleBuffer::write`: `check_cpu_write` over the full range,
then (on success) `cpu_write_lock` over the full range. -/
def CpuAccessibleBuffer.write (b : CpuAccessibleBuffer) :
    Except WriteLockError BufferState :=
  match b.state.check_cpu_write 0 b.size with
  | .error e => .error e
  | .ok _ => .ok (b.state.cpu_write_lock 0 b.size)

/-! ### The GpuFuture flush contract (`src/sync/future/mod.rs`) -/

/-- Rust `OomError`: modelled from the spec (§4.2 failure semantics); its
defining module is not among the sources under review. -/
inductive OomError where
  | outOfHostMemory : OomError
  | outOfDeviceMemory : OomError
deriving DecidableEq, Repr

/-- Rust `FlushError` (`src/sync/future/mod.rs`). -/
inductive FlushError where
  | accessError (err : AccessError) : FlushError
  | oomError (err : OomError) : FlushError
  | deviceLost : FlushError
  | surfaceLost : FlushError
  | outOfDate : FlushError
  | fullScreenExclusiveModeLost : FlushError
  | timeout : FlushError
  | presentIdLessThanOrEqual : FlushError
deriving DecidableEq, Repr

/-- Modelled from the spec: the concrete `GpuFuture` implementations
(`NowFuture`, `FenceSignalFuture`, ... in `src/sync/future/`) are not among
the sources under review; only the trait contract is.  Per §4.2, `flush` is
idempotent: the first call performs the real submission (here: consults the
driver, whose answer is the opaque `driverResult`, and records it), and
subsequent calls are no-ops returning the same result.  `submitCount`
counts the driver submissions actually performed. -/
structure ModelFuture where
  driverResult : Except FlushError Unit
  flushedResult : Option (Except FlushError Unit)
  submitCount : Nat
deriving Repr

/-- Modelled from the spec: `GpuFuture::flush`.  Returns the result handed
to the caller together with the future's state afterwards. -/
def ModelFuture.flush (f : ModelFuture) : Except FlushError Unit × ModelFuture :=
  match f.flushedResult with
  | some r => (r, f)
  | none => (f.driverResult,
      { driverResult := f.driverResult
        flushedResult := some f.driverResult
        submitCount := f.submitCount + 1 })

/-! ### Case analyses of the per-access transition functions -/

theorem checkCpuReadAccess_eq_none (a : CurrentAccess) :
    checkCpuReadAccess a = none ↔ isSharedB a = true := by
  cases a <;> simp [checkCpuReadAccess, isSharedB]

theorem checkGpuReadAccess_eq_none (a : CurrentAccess) :
    checkGpuReadAccess a = none ↔ isSharedB a = true := by
  cases a <;> simp [checkGpuReadAccess, isSharedB]

theorem checkCpuWriteAccess_eq_none (a : CurrentAccess) :
    checkCpuWriteAccess a = none ↔ a = .shared 0 0 := by
  cases a with
  | cpuExclusive => simp [checkCpuWriteAccess]
  | gpuExclusive g w => simp [checkCpuWriteAccess]
  | shared c g => cases c <;> cases g <;> simp [checkCpuWriteAccess]

theorem checkGpuWriteAccess_eq_none (a : CurrentAccess) :
    checkGpuWriteAccess a = none ↔ a = .shared 0 0 := by
  cases a with
  | cpuExclusive => simp [checkGpuWriteAccess]
  | gpuExclusive g w => simp [checkGpuWriteAccess]
  | shared c g => cases c <;> cases g <;> simp [checkGpuWriteAccess]

theorem gpuWriteLockAccess_isSome (a : CurrentAccess) :
    (gpuWriteLockAccess a).isSome = true ↔ isGpuWritableB a = true := by
  cases a with
  | cpuExclusive => simp [gpuWriteLockAccess, isGpuWritableB]
  | gpuExclusive g w => simp [gpuWriteLockAccess, isGpuWritableB]
  | shared c g => cases c <;> simp [gpuWriteLockAccess, isGpuWritableB]

theorem cpuReadUnlockAccess_eq_none (a : CurrentAccess) :
    cpuReadUnlockAccess a = none ↔ isSharedB a = false := by
  cases a <;> simp [cpuReadUnlockAccess, isSharedB]

theorem cpuWriteUnlockAccess_eq_none (a : CurrentAccess) :
    cpuWriteUnlockAccess a = none ↔ a ≠ .cpuExclusive := by
  cases a <;> simp [cpuWriteUnlockAccess]

theorem gpuReadUnlockAccess_eq_none (a : CurrentAccess) :
    gpuReadUnlockAccess a = none ↔ a = .cpuExclusive := by
  cases a <;> simp [gpuReadUnlockAccess]

theorem gpuWriteUnlockAccess_eq_none (a : CurrentAccess) :
    gpuWriteUnlockAccess a = none ↔ isGpuExclusiveB a = false := by
  cases a with
  | cpuExclusive => simp [gpuWriteUnlockAccess, isGpuExclusiveB]
  | shared c g => simp [gpuWriteUnlockAccess, isGpuExclusiveB]
  | gpuExclusive g w =>
    cases w with
    | zero => simp [gpuWriteUnlockAccess, isGpuExclusiveB]
    | succ w' => cases w' <;> simp [gpuWriteUnlockAccess, isGpuExclusiveB]

theorem gpuReadLockAccess_eq (a : CurrentAccess) (h : a ≠ .cpuExclusive) :
    gpuReadLockAccess a = some (bumpGpuReads a) := by
  cases a <;> simp_all [gpuReadLockAccess, bumpGpuReads]

theorem cpuRead_roundtrip_access (a : CurrentAccess) (h : checkCpuReadAccess a = none) :
    ∃ b, cpuReadLockAccess a = some b ∧ cpuReadUnlockAccess b = some a := by
  cases a <;> simp_all [checkCpuReadAccess, cpuReadLockAccess, cpuReadUnlockAccess]

theorem gpuRead_roundtrip_access (a : CurrentAccess) (h : checkGpuReadAccess a = none) :
    ∃ b, gpuReadLockAccess a = some b ∧ gpuReadUnlockAccess b = some a := by
  cases a <;> simp_all [checkGpuReadAccess, gpuReadLockAccess, gpuReadUnlockAccess]

theorem cpuWrite_roundtrip_access (a : CurrentAccess) (h : checkCpuWriteAccess a = none) :
    cpuWriteUnlockAccess .cpuExclusive = some a := by
  rw [checkCpuWriteAccess_eq_none] at h
  subst h
  rfl

theorem gpuWrite_roundtrip_access (a : CurrentAccess) (h : checkGpuWriteAccess a = none) :
    ∃ b, gpuWriteLockAccess a = some b ∧ gpuWriteUnlockAccess b = some a := by
  rw [checkGpuWriteAccess_eq_none] at h
  subst h
  exact ⟨.gpuExclusive 0 1, rfl, rfl⟩

/-! ### The cpu_write_lock operation through the generic machinery -/

theorem cpu_write_lock_accessAt (st : BufferState) (qlo qhi : Nat) :
    (∀ p, qlo ≤ p → p < qhi → (st.cpu_write_lock qlo qhi).accessAt p =
        (st.accessAt p).map fun _ => .cpuExclusive) ∧
    (∀ p, p < qlo ∨ qhi ≤ p → (st.cpu_write_lock qlo qhi).accessAt p = st.accessAt p) := by
  obtain ⟨st', heq, _, hin, hout⟩ :=
    lockWith_spec (fun _ => some .cpuExclusive) st qlo qhi (by intro a _; rfl)
  rw [cpu_write_lock_eq] at heq
  injection heq with heq
  subst heq
  constructor
  · intro p h1 h2
    rw [hin p h1 h2]
    cases st.accessAt p <;> rfl
  · exact hout

theorem partitions_cpu_write_lock (size : Nat) (st : BufferState) (qlo qhi : Nat)
    (hpart : partitions size st = true) :
    partitions size (st.cpu_write_lock qlo qhi) = true :=
  partitions_lockWith _ size st _ qlo qhi hpart (cpu_write_lock_eq st qlo qhi)

theorem checkCpuWriteAccess_cpuLocked (a : CurrentAccess)
    (h : checkCpuWriteAccess a = some .CpuLocked) : isCpuLockedConflictB a = true := by
  cases a with
  | cpuExclusive => rfl
  | gpuExclusive g w => simp [checkCpuWriteAccess] at h
  | shared c g =>
    cases c with
    | zero => cases g <;> simp [checkCpuWriteAccess] at h
    | succ c' => rfl

theorem checkCpuWriteAccess_gpuLocked (a : CurrentAccess)
    (h : checkCpuWriteAccess a = some .GpuLocked) : isGpuLockedConflictB a = true := by
  cases a with
  | cpuExclusive => simp [checkCpuWriteAccess] at h
  | gpuExclusive g w => rfl
  | shared c g =>
    cases c with
    | zero =>
      cases g with
      | zero => simp [checkCpuWriteAccess] at h
      | succ g' => rfl
    | succ c' => simp [checkCpuWriteAccess] at h

/-! ## Claim theorems -/

/-- C1 (amended): for every buffer state and byte range, `check_gpu_read`
returns `Ok` iff every covered sub-range is `Shared` — it errors (with
`AlreadyInUse`) not only when a CPU access is active but also when a
covered sub-range is `GpuExclusive`.  `gpu_read_lock` on a range whose
covered sub-ranges are all `Shared` or `GpuExclusive` (that is, no
`CpuExclusive`) increments `gpu_reads` on every covered sub-range without
panicking and leaves bytes outside the range unchanged. -/
theorem C1_check_gpu_read_and_lock :
    (∀ st : BufferState, ∀ qlo qhi : Nat,
      st.check_gpu_read qlo qhi = .ok () ↔
        ∀ a ∈ st.coveredAccesses qlo qhi, isSharedB a = true) ∧
    (∀ st : BufferState, ∀ qlo qhi : Nat, ∀ err : AccessError,
      st.check_gpu_read qlo qhi = .error err →
        err = .AlreadyInUse ∧ ∃ a ∈ st.coveredAccesses qlo qhi, isSharedB a = false) ∧
    (∀ st : BufferState, ∀ qlo qhi : Nat,
      (∀ a ∈ st.coveredAccesses qlo qhi, a ≠ .cpuExclusive) →
      ∃ st', st.gpu_read_lock qlo qhi = some st' ∧
        (∀ p, qlo ≤ p → p < qhi → st'.accessAt p = (st.accessAt p).map bumpGpuReads) ∧
        (∀ p, p < qlo ∨ qhi ≤ p → st'.accessAt p = st.accessAt p)) := by
  refine ⟨?_, ?_, ?_⟩
  · intro st qlo qhi
    rw [show st.check_gpu_read qlo qhi = checkList checkGpuReadAccess
        (covered qlo qhi st.ranges) from rfl, check_ok_iff_covered]
    constructor
    · intro h a ha
      rw [← checkGpuReadAccess_eq_none]
      exact h a ha
    · intro h a ha
      rw [checkGpuReadAccess_eq_none]
      exact h a ha
  · intro st qlo qhi err herr
    obtain ⟨e, he, hf⟩ := checkList_error_imp checkGpuReadAccess _ err herr
    have hmem : e.access ∈ st.coveredAccesses qlo qhi := List.mem_map.mpr ⟨e, he, rfl⟩
    cases ha : e.access with
    | shared c g => rw [ha] at hf; cases hf
    | cpuExclusive =>
      rw [ha] at hf
      cases hf
      exact ⟨rfl, e.access, hmem, by rw [ha]; rfl⟩
    | gpuExclusive g w =>
      rw [ha] at hf
      cases hf
      exact ⟨rfl, e.access, hmem, by rw [ha]; rfl⟩
  · intro st qlo qhi h
    obtain ⟨st', heq, _, hin, hout⟩ := lockWith_spec gpuReadLockAccess st qlo qhi (by
      intro a ha
      rw [gpuReadLockAccess_eq a (h a ha)]
      rfl)
    refine ⟨st', heq, ?_, hout⟩
    intro p h1 h2
    rw [hin p h1 h2]
    cases hap : st.accessAt p with
    | none => rfl
    | some a =>
      have := accessAt_mem_covered st qlo qhi p a h1 h2 hap
      simp [gpuReadLockAccess_eq a (h a this)]

/-- C1 counterexample: after `gpu_write_lock(0..10)` on a fresh buffer of
size 10, every covered sub-range of `0..10` is `GpuExclusive` (so no CPU
access is active, and the claim demands `Ok`), yet `check_gpu_read`
returns `Err(AlreadyInUse)`. -/
theorem C1_counterexample :
    (BufferState.new 10).gpu_write_lock 0 10 =
      some ⟨[⟨0, 10, .gpuExclusive 0 1⟩]⟩ ∧
    (BufferState.mk [⟨0, 10, .gpuExclusive 0 1⟩]).coveredAccesses 0 10 =
      [.gpuExclusive 0 1] ∧
    (BufferState.mk [⟨0, 10, .gpuExclusive 0 1⟩]).check_gpu_read 0 10 =
      .error .AlreadyInUse := ⟨rfl, rfl, rfl⟩

/-- C2 (amended): `check_cpu_write` returns `Ok` iff every covered
sub-range is `Shared {0, 0}`.  When it returns `Err(CpuLocked)`, some
covered sub-range is `CpuExclusive` or `Shared` with nonzero `cpu_reads`;
when it returns `Err(GpuLocked)`, some covered sub-range is `GpuExclusive`
or `Shared` with nonzero `gpu_reads` — but when both kinds of conflict are
present the reported error is the one of the first conflicting sub-range,
so the converse implications fail (see the counterexample).  On a fresh
buffer, for in-bounds overlapping ranges R1 and R2, after
`cpu_write_lock(R1)` every `check_cpu_write(R2)` returns `Err(CpuLocked)`,
and after `cpu_write_unlock(R1)` it returns `Ok`. -/
theorem C2_check_cpu_write :
    (∀ st : BufferState, ∀ qlo qhi : Nat,
      st.check_cpu_write qlo qhi = .ok () ↔
        ∀ a ∈ st.coveredAccesses qlo qhi, a = .shared 0 0) ∧
    (∀ st : BufferState, ∀ qlo qhi : Nat,
      st.check_cpu_write qlo qhi = .error .CpuLocked →
        ∃ a ∈ st.coveredAccesses qlo qhi, isCpuLockedConflictB a = true) ∧
    (∀ st : BufferState, ∀ qlo qhi : Nat,
      st.check_cpu_write qlo qhi = .error .GpuLocked →
        ∃ a ∈ st.coveredAccesses qlo qhi, isGpuLockedConflictB a = true) ∧
    (∀ size lo1 hi1 lo2 hi2 : Nat, hi1 ≤ size → hi2 ≤ size →
      max lo1 lo2 < min hi1 hi2 →
      ((BufferState.new size).cpu_write_lock lo1 hi1).check_cpu_write lo2 hi2 =
        .error .CpuLocked ∧
      ∃ st2, ((BufferState.new size).cpu_write_lock lo1 hi1).cpu_write_unlock lo1 hi1 =
        some st2 ∧ st2.check_cpu_write lo2 hi2 = .ok ()) := by
  refine ⟨?_, ?_, ?_, ?_⟩
  · intro st qlo qhi
    rw [show st.check_cpu_write qlo qhi = checkList checkCpuWriteAccess
        (covered qlo qhi st.ranges) from rfl, check_ok_iff_covered]
    constructor
    · intro h a ha
      rw [← checkCpuWriteAccess_eq_none]
      exact h a ha
    · intro h a ha
      rw [checkCpuWriteAccess_eq_none]
      exact h a ha
  · intro st qlo qhi herr
    obtain ⟨e, he, hf⟩ := checkList_error_imp checkCpuWriteAccess _ _ herr
    exact ⟨e.access, List.mem_map.mpr ⟨e, he, rfl⟩, checkCpuWriteAccess_cpuLocked _ hf⟩
  · intro st qlo qhi herr
    obtain ⟨e, he, hf⟩ := checkList_error_imp checkCpuWriteAccess _ _ herr
    exact ⟨e.access, List.mem_map.mpr ⟨e, he, rfl⟩, checkCpuWriteAccess_gpuLocked _ hf⟩
  · intro size lo1 hi1 lo2 hi2 hs1 hs2 hov
    have hsz : 0 < size := by omega
    have hpart0 := partitions_new size hsz
    have hpart1 := partitions_cpu_write_lock size (BufferState.new size) lo1 hi1 hpart0
    obtain ⟨hin1, hout1⟩ := cpu_write_lock_accessAt (BufferState.new size) lo1 hi1
    have hacc0 := accessAt_new size
    have hacc1 : ∀ p, ((BufferState.new size).cpu_write_lock lo1 hi1).accessAt p =
        if lo1 ≤ p ∧ p < hi1 then ((BufferState.new size).accessAt p).map
          (fun _ => .cpuExclusive) else (BufferState.new size).accessAt p := by
      intro p
      by_cases hc : lo1 ≤ p ∧ p < hi1
      · rw [if_pos hc]
        exact hin1 p hc.1 hc.2
      · rw [if_neg hc]
        exact hout1 p (by omega)
    constructor
    · refine check_error_of_accessAt checkCpuWriteAccess .CpuLocked _ size lo2 hi2 hpart1
        ?_ (max lo1 lo2) (le_max_right _ _) (by omega) .cpuExclusive ?_ rfl
      · intro p hp1 hp2 a hap
        rw [hacc1 p, hacc0 p] at hap
        by_cases hc : lo1 ≤ p ∧ p < hi1
        · rw [if_pos hc] at hap
          by_cases hps : p < size
          · rw [if_pos hps] at hap
            injection hap with hap
            subst hap
            right
            rfl
          · rw [if_neg hps] at hap
            cases hap
        · rw [if_neg hc] at hap
          by_cases hps : p < size
          · rw [if_pos hps] at hap
            injection hap with hap
            subst hap
            left
            rfl
          · rw [if_neg hps] at hap
            cases hap
      · rw [hacc1 _, hacc0 _, if_pos (by constructor <;> omega), if_pos (by omega)]
        rfl
    · obtain ⟨st1', st2, hl1, hl2, hres⟩ := lockWith_roundtrip (fun _ => some .cpuExclusive)
        cpuWriteUnlockAccess (BufferState.new size) lo1 hi1 (by
          intro a ha
          rw [coveredAccesses_new size lo1 hi1 a ha]
          exact ⟨.cpuExclusive, rfl, rfl⟩)
      rw [cpu_write_lock_eq] at hl1
      injection hl1 with hl1
      refine ⟨st2, ?_, ?_⟩
      · show lockWith cpuWriteUnlockAccess _ lo1 hi1 = some st2
        rw [hl1]
        exact hl2
      · have hpart2 : partitions size st2 = true :=
          partitions_lockWith _ size st1' st2 lo1 hi1 (hl1 ▸ hpart1) hl2
        refine check_ok_of_accessAt checkCpuWriteAccess st2 size lo2 hi2 hpart2 ?_
        intro p hp1 hp2 a hap
        rw [hres p, hacc0 p] at hap
        by_cases hps : p < size
        · rw [if_pos hps] at hap
          injection hap with hap
          subst hap
          rfl
        · rw [if_neg hps] at hap
          cases hap

/-- C2 counterexample: from a fresh buffer of size 10, `cpu_read_lock`
then `gpu_read_lock` over `0..10` produce the reachable state
`Shared { cpu_reads: 1, gpu_reads: 1 }`.  Some covered sub-range is
`Shared` with nonzero `gpu_reads`, so the claim requires
`Err(GpuLocked)`, but `check_cpu_write` returns `Err(CpuLocked)`. -/
theorem C2_counterexample :
    (BufferState.new 10).cpu_read_lock 0 10 = some ⟨[⟨0, 10, .shared 1 0⟩]⟩ ∧
    (BufferState.mk [⟨0, 10, .shared 1 0⟩]).gpu_read_lock 0 10 =
      some ⟨[⟨0, 10, .shared 1 1⟩]⟩ ∧
    isGpuLockedConflictB (.shared 1 1) = true ∧
    (BufferState.mk [⟨0, 10, .shared 1 1⟩]).check_cpu_write 0 10 =
      .error .CpuLocked := ⟨rfl, rfl, rfl, rfl⟩

/-- C2 witness: the scenario instantiated on a buffer of size 100 with
R1 = 0..50 and R2 = 40..60. -/
theorem C2_witness :
    ((BufferState.new 100).cpu_write_lock 0 50).check_cpu_write 40 60 =
      .error .CpuLocked ∧
    ∃ st2, ((BufferState.new 100).cpu_write_lock 0 50).cpu_write_unlock 0 50 =
      some st2 ∧ st2.check_cpu_write 40 60 = .ok () :=
  C2_check_cpu_write.2.2.2 100 0 50 40 60 (by decide) (by decide) (by decide)

/-- C1 witness: `gpu_read_lock(2..6)` on a fresh buffer of size 10. -/
theorem C1_witness :
    ∃ st', (BufferState.new 10).gpu_read_lock 2 6 = some st' ∧
      (∀ p, 2 ≤ p → p < 6 → st'.accessAt p =
        ((BufferState.new 10).accessAt p).map bumpGpuReads) ∧
      (∀ p, p < 2 ∨ 6 ≤ p → st'.accessAt p = (BufferState.new 10).accessAt p) :=
  C1_check_gpu_read_and_lock.2.2 (BufferState.new 10) 2 6 (by
    intro a ha
    rw [coveredAccesses_new 10 2 6 a ha]
    decide)

/-- C3 (amended): `check_cpu_read` returns `Ok` iff every covered
sub-range is `Shared` (and in this embedding it is a pure function of the
state, mirroring the `&self` receiver — it cannot mutate).  The error kind
corresponds to the first covered non-`Shared` sub-range: `CpuWriteLocked`
is returned only if some covered sub-range is `CpuExclusive`, and
`GpuWriteLocked` only if some covered sub-range is `GpuExclusive`, but a
state containing both kinds of conflict reports the first one (see the
counterexample).  The spec's scenario holds: on a resource of size 100,
after `cpu_write_lock(0..50)`, `check_cpu_read(40..60)` returns
`Err(CpuWriteLocked)` via the overlapping sub-range `40..50`. -/
theorem C3_check_cpu_read :
    (∀ st : BufferState, ∀ qlo qhi : Nat,
      st.check_cpu_read qlo qhi = .ok () ↔
        ∀ a ∈ st.coveredAccesses qlo qhi, isSharedB a = true) ∧
    (∀ st : BufferState, ∀ qlo qhi : Nat,
      st.check_cpu_read qlo qhi = .error .CpuWriteLocked →
        .cpuExclusive ∈ st.coveredAccesses qlo qhi) ∧
    (∀ st : BufferState, ∀ qlo qhi : Nat,
      st.check_cpu_read qlo qhi = .error .GpuWriteLocked →
        ∃ a ∈ st.coveredAccesses qlo qhi, isGpuExclusiveB a = true) ∧
    ((BufferState.new 100).cpu_write_lock 0 50).check_cpu_read 40 60 =
      .error .CpuWriteLocked := by
  refine ⟨?_, ?_, ?_, rfl⟩
  · intro st qlo qhi
    rw [show st.check_cpu_read qlo qhi = checkList checkCpuReadAccess
        (covered qlo qhi st.ranges) from rfl, check_ok_iff_covered]
    constructor
    · intro h a ha
      rw [← checkCpuReadAccess_eq_none]
      exact h a ha
    · intro h a ha
      rw [checkCpuReadAccess_eq_none]
      exact h a ha
  · intro st qlo qhi herr
    obtain ⟨e, he, hf⟩ := checkList_error_imp checkCpuReadAccess _ _ herr
    have hmem : e.access ∈ st.coveredAccesses qlo qhi := List.mem_map.mpr ⟨e, he, rfl⟩
    cases ha : e.access with
    | cpuExclusive => rw [ha] at hmem; exact hmem
    | gpuExclusive g w => rw [ha] at hf; simp [checkCpuReadAccess] at hf
    | shared c g => rw [ha] at hf; simp [checkCpuReadAccess] at hf
  · intro st qlo qhi herr
    obtain ⟨e, he, hf⟩ := checkList_error_imp checkCpuReadAccess _ _ herr
    have hmem : e.access ∈ st.coveredAccesses qlo qhi := List.mem_map.mpr ⟨e, he, rfl⟩
    cases ha : e.access with
    | cpuExclusive => rw [ha] at hf; simp [checkCpuReadAccess] at hf
    | gpuExclusive g w => exact ⟨e.access, hmem, by rw [ha]; rfl⟩
    | shared c g => rw [ha] at hf; simp [checkCpuReadAccess] at hf

/-- C3 counterexample: in the reachable state with `0..10` being
`GpuExclusive` and `10..20` being `CpuExclusive`, some covered sub-range
of `0..20` is `CpuExclusive`, so the claim requires `Err(CpuWriteLocked)`,
but `check_cpu_read(0..20)` reports the first conflict,
`Err(GpuWriteLocked)`. -/
theorem C3_counterexample :
    (BufferState.new 20).gpu_write_lock 0 10 =
      some ⟨[⟨0, 10, .gpuExclusive 0 1⟩, ⟨10, 20, .shared 0 0⟩]⟩ ∧
    (BufferState.mk [⟨0, 10, .gpuExclusive 0 1⟩, ⟨10, 20, .shared 0 0⟩]).cpu_write_lock
        10 20 = ⟨[⟨0, 10, .gpuExclusive 0 1⟩, ⟨10, 20, .cpuExclusive⟩]⟩ ∧
    .cpuExclusive ∈ (BufferState.mk [⟨0, 10, .gpuExclusive 0 1⟩,
      ⟨10, 20, .cpuExclusive⟩]).coveredAccesses 0 20 ∧
    (BufferState.mk [⟨0, 10, .gpuExclusive 0 1⟩, ⟨10, 20, .cpuExclusive⟩]).check_cpu_read
        0 20 = .error .GpuWriteLocked := by
  refine ⟨rfl, rfl, by decide, rfl⟩

/-- C3 witness: a fresh buffer passes `check_cpu_read` over any range. -/
theorem C3_witness :
    (BufferState.new 5).check_cpu_read 0 5 = .ok () :=
  (C3_check_cpu_read.1 (BufferState.new 5) 0 5).mpr (by
    intro a ha
    rw [coveredAccesses_new 5 0 5 a ha]
    rfl)

/-- C4: for each of the four lock kinds, under the precondition that the
matching `check_*` succeeded, `lock(R)` then `unlock(R)` succeeds and
restores every byte of the buffer (inside and outside R) to exactly its
pre-lock access state; the range map may keep the split boundaries, but
the per-byte access states are identical.  The spec's scenario holds:
`cpu_write_lock(0..50)`, `cpu_write_unlock(0..50)`, then
`check_cpu_write(0..100)` returns `Ok`. -/
theorem C4_roundtrip :
    (∀ st : BufferState, ∀ qlo qhi : Nat, st.check_cpu_read qlo qhi = .ok () →
      ∃ st1 st2, st.cpu_read_lock qlo qhi = some st1 ∧
        st1.cpu_read_unlock qlo qhi = some st2 ∧
        ∀ p, st2.accessAt p = st.accessAt p) ∧
    (∀ st : BufferState, ∀ qlo qhi : Nat, st.check_cpu_write qlo qhi = .ok () →
      ∃ st2, (st.cpu_write_lock qlo qhi).cpu_write_unlock qlo qhi = some st2 ∧
        ∀ p, st2.accessAt p = st.accessAt p) ∧
    (∀ st : BufferState, ∀ qlo qhi : Nat, st.check_gpu_read qlo qhi = .ok () →
      ∃ st1 st2, st.gpu_read_lock qlo qhi = some st1 ∧
        st1.gpu_read_unlock qlo qhi = some st2 ∧
        ∀ p, st2.accessAt p = st.accessAt p) ∧
    (∀ st : BufferState, ∀ qlo qhi : Nat, st.check_gpu_write qlo qhi = .ok () →
      ∃ st1 st2, st.gpu_write_lock qlo qhi = some st1 ∧
        st1.gpu_write_unlock qlo qhi = some st2 ∧
        ∀ p, st2.accessAt p = st.accessAt p) ∧
    (((BufferState.new 100).cpu_write_lock 0 50).cpu_write_unlock 0 50 =
        some ⟨[⟨0, 50, .shared 0 0⟩, ⟨50, 100, .shared 0 0⟩]⟩ ∧
      (BufferState.mk [⟨0, 50, .shared 0 0⟩,
        ⟨50, 100, .shared 0 0⟩]).check_cpu_write 0 100 = .ok ()) := by
  refine ⟨?_, ?_, ?_, ?_, rfl, rfl⟩
  · intro st qlo qhi h
    exact lockWith_roundtrip cpuReadLockAccess cpuReadUnlockAccess st qlo qhi
      fun a ha => cpuRead_roundtrip_access a
        ((check_ok_iff_covered checkCpuReadAccess st qlo qhi).mp h a ha)
  · intro st qlo qhi h
    obtain ⟨st1, st2, h1, h2, h3⟩ := lockWith_roundtrip (fun _ => some .cpuExclusive)
      cpuWriteUnlockAccess st qlo qhi (fun a ha =>
        ⟨.cpuExclusive, rfl, cpuWrite_roundtrip_access a
          ((check_ok_iff_covered checkCpuWriteAccess st qlo qhi).mp h a ha)⟩)
    rw [cpu_write_lock_eq] at h1
    injection h1 with h1
    refine ⟨st2, ?_, h3⟩
    show lockWith cpuWriteUnlockAccess _ qlo qhi = some st2
    rw [h1]
    exact h2
  · intro st qlo qhi h
    exact lockWith_roundtrip gpuReadLockAccess gpuReadUnlockAccess st qlo qhi
      fun a ha => gpuRead_roundtrip_access a
        ((check_ok_iff_covered checkGpuReadAccess st qlo qhi).mp h a ha)
  · intro st qlo qhi h
    exact lockWith_roundtrip gpuWriteLockAccess gpuWriteUnlockAccess st qlo qhi
      fun a ha => gpuWrite_roundtrip_access a
        ((check_ok_iff_covered checkGpuWriteAccess st qlo qhi).mp h a ha)

/-- C4 witness: the cpu-read pair on a fresh buffer of size 10. -/
theorem C4_witness :
    ∃ st1 st2, (BufferState.new 10).cpu_read_lock 0 10 = some st1 ∧
      st1.cpu_read_unlock 0 10 = some st2 ∧
      ∀ p, st2.accessAt p = (BufferState.new 10).accessAt p :=
  C4_roundtrip.1 (BufferState.new 10) 0 10 rfl

theorem gpuWriteUnlockAccess_isSome (a : CurrentAccess) (h : isGpuExclusiveB a = true) :
    (gpuWriteUnlockAccess a).isSome := by
  cases a with
  | cpuExclusive => simp [isGpuExclusiveB] at h
  | shared c g => simp [isGpuExclusiveB] at h
  | gpuExclusive g w =>
    cases w with
    | zero => rfl
    | succ w' => cases w' <;> rfl

/-- C5: on a range whose covered sub-ranges are all `GpuExclusive`,
`gpu_write_unlock` succeeds (no panic); on every byte of the range, a
sub-range with `gpu_writes = 1` reverts to `Shared { cpu_reads: 0,
gpu_reads }`, preserving the accumulated `gpu_reads` count, and a
sub-range with `gpu_writes ≥ 2` just decrements `gpu_writes`; bytes
outside the range are unchanged. -/
theorem C5_gpu_write_unlock :
    ∀ st : BufferState, ∀ qlo qhi : Nat,
      (∀ a ∈ st.coveredAccesses qlo qhi, isGpuExclusiveB a = true) →
      ∃ st', st.gpu_write_unlock qlo qhi = some st' ∧
        (∀ p, qlo ≤ p → p < qhi →
          (∀ g, st.accessAt p = some (.gpuExclusive g 1) →
            st'.accessAt p = some (.shared 0 g)) ∧
          (∀ g w, st.accessAt p = some (.gpuExclusive g (w + 2)) →
            st'.accessAt p = some (.gpuExclusive g (w + 1)))) ∧
        (∀ p, p < qlo ∨ qhi ≤ p → st'.accessAt p = st.accessAt p) := by
  intro st qlo qhi h
  obtain ⟨st', heq, _, hin, hout⟩ := lockWith_spec gpuWriteUnlockAccess st qlo qhi
    fun a ha => gpuWriteUnlockAccess_isSome a (h a ha)
  refine ⟨st', heq, ?_, hout⟩
  intro p h1 h2
  constructor
  · intro g hap
    rw [hin p h1 h2, hap]
    rfl
  · intro g w hap
    rw [hin p h1 h2, hap]
    rfl

/-- C5 witness: unlocking the state `GpuExclusive { gpu_reads: 3,
gpu_writes: 1 }` over the full range. -/
theorem C5_witness :
    ∃ st', (BufferState.mk [⟨0, 10, .gpuExclusive 3 1⟩]).gpu_write_unlock 0 10 =
        some st' ∧
      (∀ p, 0 ≤ p → p < 10 →
        (∀ g, (BufferState.mk [⟨0, 10, .gpuExclusive 3 1⟩]).accessAt p =
            some (.gpuExclusive g 1) → st'.accessAt p = some (.shared 0 g)) ∧
        (∀ g w, (BufferState.mk [⟨0, 10, .gpuExclusive 3 1⟩]).accessAt p =
            some (.gpuExclusive g (w + 2)) →
          st'.accessAt p = some (.gpuExclusive g (w + 1)))) ∧
      (∀ p, p < 0 ∨ 10 ≤ p → st'.accessAt p =
        (BufferState.mk [⟨0, 10, .gpuExclusive 3 1⟩]).accessAt p) :=
  C5_gpu_write_unlock ⟨[⟨0, 10, .gpuExclusive 3 1⟩]⟩ 0 10 (by decide)

/-- C6: a freshly created buffer state is the single range `[0, size)` in
`Shared { cpu_reads: 0, gpu_reads: 0 }` (a partition of `[0, size)` when
`size > 0`), and every `BufferState` operation preserves the partition
invariant: the boundary splits subdivide ranges without changing coverage,
and the per-range updates keep the keys.  The `check_*` operations are
pure functions of the state in this embedding (mirroring that they never
insert or remove ranges), so they preserve the invariant trivially. -/
theorem C6_partition_invariant :
    (∀ size : Nat, (BufferState.new size).ranges = [⟨0, size, .shared 0 0⟩]) ∧
    (∀ size : Nat, 0 < size → partitions size (BufferState.new size) = true) ∧
    (∀ size : Nat, ∀ st st' : BufferState, ∀ qlo qhi : Nat, partitions size st = true →
      partitions size (st.cpu_write_lock qlo qhi) = true ∧
      (st.cpu_read_lock qlo qhi = some st' → partitions size st' = true) ∧
      (st.cpu_read_unlock qlo qhi = some st' → partitions size st' = true) ∧
      (st.cpu_write_unlock qlo qhi = some st' → partitions size st' = true) ∧
      (st.gpu_read_lock qlo qhi = some st' → partitions size st' = true) ∧
      (st.gpu_read_unlock qlo qhi = some st' → partitions size st' = true) ∧
      (st.gpu_write_lock qlo qhi = some st' → partitions size st' = true) ∧
      (st.gpu_write_unlock qlo qhi = some st' → partitions size st' = true)) := by
  refine ⟨fun size => rfl, partitions_new, ?_⟩
  intro size st st' qlo qhi hpart
  exact ⟨partitions_cpu_write_lock size st qlo qhi hpart,
    partitions_lockWith cpuReadLockAccess size st st' qlo qhi hpart,
    partitions_lockWith cpuReadUnlockAccess size st st' qlo qhi hpart,
    partitions_lockWith cpuWriteUnlockAccess size st st' qlo qhi hpart,
    partitions_lockWith gpuReadLockAccess size st st' qlo qhi hpart,
    partitions_lockWith gpuReadUnlockAccess size st st' qlo qhi hpart,
    partitions_lockWith gpuWriteLockAccess size st st' qlo qhi hpart,
    partitions_lockWith gpuWriteUnlockAccess size st st' qlo qhi hpart⟩

/-- C6 witness: the invariant on a fresh buffer of size 100 and after
`cpu_write_lock(20..80)` (which splits the single range in three). -/
theorem C6_witness :
    partitions 100 (BufferState.new 100) = true ∧
    partitions 100 ((BufferState.new 100).cpu_write_lock 20 80) = true :=
  ⟨C6_partition_invariant.2.1 100 (by decide),
   (C6_partition_invariant.2.2 100 (BufferState.new 100) (BufferState.new 100) 20 80
      (C6_partition_invariant.2.1 100 (by decide))).1⟩

/-- C7: each unlock operation hits its `unreachable!` branch (modelled as
`none`) as soon as some covered sub-range is not in the state the matching
lock would have left: `cpu_read_unlock` on a non-`Shared` sub-range,
`cpu_write_unlock` on a non-`CpuExclusive` sub-range, `gpu_read_unlock` on
a `CpuExclusive` sub-range, `gpu_write_unlock` on a non-`GpuExclusive`
sub-range.  No recoverable error is returned.  Conversely, when the
matching `check_*` succeeded and the matching lock was taken, the unlock
succeeds — the panic branch is unreachable under correct use. -/
theorem C7_unlock_mismatch :
    (∀ st : BufferState, ∀ qlo qhi : Nat,
      (∃ a ∈ st.coveredAccesses qlo qhi, isSharedB a = false) →
        st.cpu_read_unlock qlo qhi = none) ∧
    (∀ st : BufferState, ∀ qlo qhi : Nat,
      (∃ a ∈ st.coveredAccesses qlo qhi, a ≠ .cpuExclusive) →
        st.cpu_write_unlock qlo qhi = none) ∧
    (∀ st : BufferState, ∀ qlo qhi : Nat,
      .cpuExclusive ∈ st.coveredAccesses qlo qhi →
        st.gpu_read_unlock qlo qhi = none) ∧
    (∀ st : BufferState, ∀ qlo qhi : Nat,
      (∃ a ∈ st.coveredAccesses qlo qhi, isGpuExclusiveB a = false) →
        st.gpu_write_unlock qlo qhi = none) ∧
    (∀ st : BufferState, ∀ qlo qhi : Nat, st.check_cpu_read qlo qhi = .ok () →
      ∃ st1 st2, st.cpu_read_lock qlo qhi = some st1 ∧
        st1.cpu_read_unlock qlo qhi = some st2) ∧
    (∀ st : BufferState, ∀ qlo qhi : Nat, st.check_cpu_write qlo qhi = .ok () →
      ∃ st2, (st.cpu_write_lock qlo qhi).cpu_write_unlock qlo qhi = some st2) ∧
    (∀ st : BufferState, ∀ qlo qhi : Nat, st.check_gpu_read qlo qhi = .ok () →
      ∃ st1 st2, st.gpu_read_lock qlo qhi = some st1 ∧
        st1.gpu_read_unlock qlo qhi = some st2) ∧
    (∀ st : BufferState, ∀ qlo qhi : Nat, st.check_gpu_write qlo qhi = .ok () →
      ∃ st1 st2, st.gpu_write_lock qlo qhi = some st1 ∧
        st1.gpu_write_unlock qlo qhi = some st2) := by
  refine ⟨?_, ?_, ?_, ?_, ?_, ?_, ?_, ?_⟩
  · intro st qlo qhi h
    obtain ⟨a, ha, hns⟩ := h
    exact lockWith_none cpuReadUnlockAccess st qlo qhi a ha
      ((cpuReadUnlockAccess_eq_none a).mpr hns)
  · intro st qlo qhi h
    obtain ⟨a, ha, hns⟩ := h
    exact lockWith_none cpuWriteUnlockAccess st qlo qhi a ha
      ((cpuWriteUnlockAccess_eq_none a).mpr hns)
  · intro st qlo qhi h
    exact lockWith_none gpuReadUnlockAccess st qlo qhi .cpuExclusive h rfl
  · intro st qlo qhi h
    obtain ⟨a, ha, hns⟩ := h
    exact lockWith_none gpuWriteUnlockAccess st qlo qhi a ha
      ((gpuWriteUnlockAccess_eq_none a).mpr hns)
  · intro st qlo qhi h
    obtain ⟨st1, st2, h1, h2, _⟩ := lockWith_roundtrip cpuReadLockAccess
      cpuReadUnlockAccess st qlo qhi (fun a ha => cpuRead_roundtrip_access a
        ((check_ok_iff_covered checkCpuReadAccess st qlo qhi).mp h a ha))
    exact ⟨st1, st2, h1, h2⟩
  · intro st qlo qhi h
    obtain ⟨st1, st2, h1, h2, _⟩ := lockWith_roundtrip (fun _ => some .cpuExclusive)
      cpuWriteUnlockAccess st qlo qhi (fun a ha =>
        ⟨.cpuExclusive, rfl, cpuWrite_roundtrip_access a
          ((check_ok_iff_covered checkCpuWriteAccess st qlo qhi).mp h a ha)⟩)
    rw [cpu_write_lock_eq] at h1
    injection h1 with h1
    refine ⟨st2, ?_⟩
    show lockWith cpuWriteUnlockAccess _ qlo qhi = some st2
    rw [h1]
    exact h2
  · intro st qlo qhi h
    obtain ⟨st1, st2, h1, h2, _⟩ := lockWith_roundtrip gpuReadLockAccess
      gpuReadUnlockAccess st qlo qhi (fun a ha => gpuRead_roundtrip_access a
        ((check_ok_iff_covered checkGpuReadAccess st qlo qhi).mp h a ha))
    exact ⟨st1, st2, h1, h2⟩
  · intro st qlo qhi h
    obtain ⟨st1, st2, h1, h2, _⟩ := lockWith_roundtrip gpuWriteLockAccess
      gpuWriteUnlockAccess st qlo qhi (fun a ha => gpuWrite_roundtrip_access a
        ((check_ok_iff_covered checkGpuWriteAccess st qlo qhi).mp h a ha))
    exact ⟨st1, st2, h1, h2⟩

/-- C7 witness: `cpu_read_unlock` on a `CpuExclusive` range panics, and
the gpu-write lock/unlock pair on a fresh buffer succeeds. -/
theorem C7_witness :
    (BufferState.mk [⟨0, 10, .cpuExclusive⟩]).cpu_read_unlock 0 10 = none ∧
    ∃ st1 st2, (BufferState.new 10).gpu_write_lock 0 10 = some st1 ∧
      st1.gpu_write_unlock 0 10 = some st2 :=
  ⟨C7_unlock_mismatch.1 ⟨[⟨0, 10, .cpuExclusive⟩]⟩ 0 10
      ⟨.cpuExclusive, by decide, rfl⟩,
    C7_unlock_mismatch.2.2.2.2.2.2.2 (BufferState.new 10) 0 10 rfl⟩

/-- C8: `flush` is idempotent.  For every future, flushing the state
produced by a flush returns the same `Result` and changes nothing (in
particular `submitCount` stays, so no second driver submission happens);
and the first call on an unflushed future performs exactly one real
submission and returns the driver's result. -/
theorem C8_flush_idempotent :
    ∀ f : ModelFuture,
      f.flush.2.flush = (f.flush.1, f.flush.2) ∧
      (f.flushedResult = none →
        f.flush.1 = f.driverResult ∧ f.flush.2.submitCount = f.submitCount + 1) := by
  intro f
  cases hf : f.flushedResult with
  | some r =>
    constructor
    · simp [ModelFuture.flush, hf]
    · intro h
      simp [h] at hf
      exact absurd h (by simp)
  | none =>
    constructor
    · simp [ModelFuture.flush, hf]
    · intro _
      simp [ModelFuture.flush, hf]

/-- C8 witness: a concrete unflushed future whose driver reports success. -/
theorem C8_witness :
    (⟨.ok (), none, 0⟩ : ModelFuture).flush.2.flush =
      ((⟨.ok (), none, 0⟩ : ModelFuture).flush.1,
        (⟨.ok (), none, 0⟩ : ModelFuture).flush.2) ∧
    (⟨.ok (), none, 0⟩ : ModelFuture).flush.1 = .ok () ∧
    (⟨.ok (), none, 0⟩ : ModelFuture).flush.2.submitCount = 0 + 1 :=
  ⟨(C8_flush_idempotent ⟨.ok (), none, 0⟩).1,
    (C8_flush_idempotent ⟨.ok (), none, 0⟩).2 rfl⟩

/-- C9: the precondition of `gpu_write_lock` is strictly weaker than
`check_gpu_write` succeeding.  `gpu_write_lock` succeeds iff every covered
sub-range is `GpuExclusive` (incrementing `gpu_writes`) or `Shared` with
`cpu_reads = 0` and arbitrary `gpu_reads` (transitioning to
`GpuExclusive { gpu_reads, gpu_writes: 1 }`, carrying the count over),
while `check_gpu_write` succeeds iff every covered sub-range is
`Shared {0, 0}`.  The strictness is exhibited on the reachable state
`Shared {0, 1}` and on `GpuExclusive {2, 3}`. -/
theorem C9_gpu_write_lock_weaker :
    (∀ st : BufferState, ∀ qlo qhi : Nat,
      (st.gpu_write_lock qlo qhi).isSome = true ↔
        ∀ a ∈ st.coveredAccesses qlo qhi, isGpuWritableB a = true) ∧
    (∀ st : BufferState, ∀ qlo qhi : Nat,
      st.check_gpu_write qlo qhi = .ok () ↔
        ∀ a ∈ st.coveredAccesses qlo qhi, a = .shared 0 0) ∧
    (∀ st : BufferState, ∀ qlo qhi : Nat,
      st.check_gpu_write qlo qhi = .ok () → (st.gpu_write_lock qlo qhi).isSome = true) ∧
    ((BufferState.new 10).gpu_read_lock 0 10 = some ⟨[⟨0, 10, .shared 0 1⟩]⟩ ∧
      (BufferState.mk [⟨0, 10, .shared 0 1⟩]).check_gpu_write 0 10 =
        .error .AlreadyInUse ∧
      (BufferState.mk [⟨0, 10, .shared 0 1⟩]).gpu_write_lock 0 10 =
        some ⟨[⟨0, 10, .gpuExclusive 1 1⟩]⟩ ∧
      (BufferState.mk [⟨0, 10, .gpuExclusive 2 3⟩]).gpu_write_lock 0 10 =
        some ⟨[⟨0, 10, .gpuExclusive 2 4⟩]⟩) := by
  have hiff : ∀ st : BufferState, ∀ qlo qhi : Nat,
      (st.gpu_write_lock qlo qhi).isSome = true ↔
        ∀ a ∈ st.coveredAccesses qlo qhi, isGpuWritableB a = true := by
    intro st qlo qhi
    rw [show st.gpu_write_lock qlo qhi = lockWith gpuWriteLockAccess st qlo qhi from rfl,
      lockWith_isSome_iff]
    constructor
    · intro h a ha
      rw [← gpuWriteLockAccess_isSome]
      exact h a ha
    · intro h a ha
      rw [gpuWriteLockAccess_isSome]
      exact h a ha
  have hchk : ∀ st : BufferState, ∀ qlo qhi : Nat,
      st.check_gpu_write qlo qhi = .ok () ↔
        ∀ a ∈ st.coveredAccesses qlo qhi, a = .shared 0 0 := by
    intro st qlo qhi
    rw [show st.check_gpu_write qlo qhi = checkList checkGpuWriteAccess
        (covered qlo qhi st.ranges) from rfl, check_ok_iff_covered]
    constructor
    · intro h a ha
      rw [← checkGpuWriteAccess_eq_none]
      exact h a ha
    · intro h a ha
      rw [checkGpuWriteAccess_eq_none]
      exact h a ha
  refine ⟨hiff, hchk, ?_, rfl, rfl, rfl, rfl⟩
  intro st qlo qhi h
  rw [hiff]
  intro a ha
  rw [(hchk st qlo qhi).mp h a ha]
  rfl

/-- C9 witness: the lock succeeds on a fresh buffer, where the check also
succeeds. -/
theorem C9_witness :
    ((BufferState.new 10).gpu_write_lock 0 10).isSome = true :=
  C9_gpu_write_lock_weaker.2.2.1 (BufferState.new 10) 0 10 rfl

/-- C10: `CpuAccessibleBuffer::read` and `::write` always operate on the
whole range `0..size`: they return `Err` exactly when the corresponding
full-range check fails (and then the access state is untouched — the model
returns before constructing any new state); on success the full range is
locked and the lock call cannot panic; and dropping the returned guard
(one `cpu_read_unlock` / `cpu_write_unlock` of the same full range)
restores every byte to its pre-lock access state, releasing the lock
exactly once. -/
theorem C10_cpu_accessible_read_write :
    (∀ b : CpuAccessibleBuffer, ∀ e : ReadLockError,
      b.read = .error e ↔ b.state.check_cpu_read 0 b.size = .error e) ∧
    (∀ b : CpuAccessibleBuffer, ∀ o : Option BufferState, b.read = .ok o →
      o = b.state.cpu_read_lock 0 b.size ∧ o.isSome = true) ∧
    (∀ b : CpuAccessibleBuffer, ∀ st1 : BufferState, b.read = .ok (some st1) →
      ∃ st2, st1.cpu_read_unlock 0 b.size = some st2 ∧
        ∀ p, st2.accessAt p = b.state.accessAt p) ∧
    (∀ b : CpuAccessibleBuffer, ∀ e : WriteLockError,
      b.write = .error e ↔ b.state.check_cpu_write 0 b.size = .error e) ∧
    (∀ b : CpuAccessibleBuffer, ∀ st1 : BufferState, b.write = .ok st1 →
      st1 = b.state.cpu_write_lock 0 b.size ∧
      ∃ st2, st1.cpu_write_unlock 0 b.size = some st2 ∧
        ∀ p, st2.accessAt p = b.state.accessAt p) := by
  have hread : ∀ b : CpuAccessibleBuffer, ∀ o : Option BufferState, b.read = .ok o →
      b.state.check_cpu_read 0 b.size = .ok () ∧ o = b.state.cpu_read_lock 0 b.size := by
    intro b o h
    unfold CpuAccessibleBuffer.read at h
    cases hc : b.state.check_cpu_read 0 b.size with
    | error e2 => rw [hc] at h; cases h
    | ok u =>
      cases u
      rw [hc] at h
      injection h with h
      exact ⟨rfl, h.symm⟩
  have hwrite : ∀ b : CpuAccessibleBuffer, ∀ st1 : BufferState, b.write = .ok st1 →
      b.state.check_cpu_write 0 b.size = .ok () ∧ st1 = b.state.cpu_write_lock 0 b.size := by
    intro b st1 h
    unfold CpuAccessibleBuffer.write at h
    cases hc : b.state.check_cpu_write 0 b.size with
    | error e2 => rw [hc] at h; cases h
    | ok u =>
      cases u
      rw [hc] at h
      injection h with h
      exact ⟨rfl, h.symm⟩
  refine ⟨?_, ?_, ?_, ?_, ?_⟩
  · intro b e
    unfold CpuAccessibleBuffer.read
    cases hc : b.state.check_cpu_read 0 b.size with
    | error e2 => simp
    | ok u => cases u; simp
  · intro b o h
    obtain ⟨hchk, rfl⟩ := hread b o h
    refine ⟨rfl, ?_⟩
    rw [show b.state.cpu_read_lock 0 b.size =
      lockWith cpuReadLockAccess b.state 0 b.size from rfl, lockWith_isSome_iff]
    intro a ha
    obtain ⟨c, hc1, _⟩ := cpuRead_roundtrip_access a
      ((check_ok_iff_covered checkCpuReadAccess b.state 0 b.size).mp hchk a ha)
    simp [hc1]
  · intro b st1 h
    obtain ⟨hchk, hlock⟩ := hread b (some st1) h
    obtain ⟨st1', st2, h1, h2, h3⟩ := lockWith_roundtrip cpuReadLockAccess
      cpuReadUnlockAccess b.state 0 b.size (fun a ha => cpuRead_roundtrip_access a
        ((check_ok_iff_covered checkCpuReadAccess b.state 0 b.size).mp hchk a ha))
    rw [show b.state.cpu_read_lock 0 b.size =
      lockWith cpuReadLockAccess b.state 0 b.size from rfl, h1] at hlock
    injection hlock with hlock
    subst hlock
    exact ⟨st2, h2, h3⟩
  · intro b e
    unfold CpuAccessibleBuffer.write
    cases hc : b.state.check_cpu_write 0 b.size with
    | error e2 => simp
    | ok u => cases u; simp
  · intro b st1 h
    obtain ⟨hchk, hlock⟩ := hwrite b st1 h
    obtain ⟨st1', st2, h1, h2, h3⟩ := lockWith_roundtrip (fun _ => some .cpuExclusive)
      cpuWriteUnlockAccess b.state 0 b.size (fun a ha =>
        ⟨.cpuExclusive, rfl, cpuWrite_roundtrip_access a
          ((check_ok_iff_covered checkCpuWriteAccess b.state 0 b.size).mp hchk a ha)⟩)
    rw [cpu_write_lock_eq] at h1
    injection h1 with h1
    refine ⟨hlock, st2, ?_, h3⟩
    rw [hlock, h1]
    exact h2

/-- C10 witness: reading a fresh CPU-accessible buffer of size 10 locks
`0..10`, and dropping the guard restores the state. -/
theorem C10_witness :
    ∃ st2, (BufferState.mk [⟨0, 10, .shared 1 0⟩]).cpu_read_unlock 0 10 = some st2 ∧
      ∀ p, st2.accessAt p =
        (⟨10, BufferState.new 10⟩ : CpuAccessibleBuffer).state.accessAt p :=
  C10_cpu_accessible_read_write.2.2.1 ⟨10, BufferState.new 10⟩
    ⟨[⟨0, 10, .shared 1 0⟩]⟩ rfl

end Vulkano
